import Mathlib

/-!
# Verification of the hbackup backup-job resolution and execution engine

This file gives a shallow embedding, in Lean 4, of the core of the hbackup
backup tool: the planner (`get_item` for single-file jobs, `get_items` for
directory jobs, from `src/item.rs`), the freshness heuristic (`needs_update`
from `src/file_util.rs`), the executor (`execute_item` from `src/item.rs`),
the archive-name computation (from the `compress_*` family in
`src/file_util.rs`), and the batch runner (`run_jobs` / `run_job_async` from
`src/job.rs`).

The filesystem is modelled as a finite association list from paths (lists of
components) to nodes carrying a directory flag, a size, a modification time
and file contents.  `WalkDir` enumeration is modelled as filtering the entry
list by path prefix; the recursive-walk order of the real library is
abstracted to the entry-list order, which no statement below depends on.
Modification times are natural numbers measured in seconds (the unit of the
`TOLERANCE` constant of `src/file_util.rs`).

Asynchronous execution (`execute_item_async`, the `tokio` fan-out in
`run_job_async` / `run_jobs`) has, per the code, the identical per-action
contract as the synchronous variants; concurrency is modelled by a
sequential linearisation in which every job of a batch observes the same
initial filesystem snapshot and a `process::exit` in any job aborts the
whole batch.
-/

namespace HBackup

/-- A filesystem path, as its list of components. -/
abbrev Path := List String

/-- `Path::join`: append components. -/
def pjoin (p q : Path) : Path := p ++ q

/-- `Path::parent`, with the `unwrap_or(Path::new(""))` of `get_items`:
the path without its last component. -/
def pparent (p : Path) : Path := p.dropLast

/-- `Path::file_name`: the last component, if any. -/
def fileName (p : Path) : Option String := p.getLast?

/-- `Path::starts_with`: `q` is a component-wise prefix of `p`. -/
def pstarts (p q : Path) : Bool := q.isPrefixOf p

/-- `Path::strip_prefix`: drop the prefix `pre` from `p`, failing when `pre`
is not a prefix. -/
def stripPre (pre p : Path) : Option Path :=
  if pre.isPrefixOf p then some (p.drop pre.length) else none

/-- One filesystem node: a directory flag, the metadata size and
modification time (seconds), and the file bytes. -/
structure FNode where
  isDir : Bool
  size : Nat
  mtime : Nat
  content : List Nat
deriving DecidableEq, Repr

/-- A filesystem: a finite association list from paths to nodes. -/
structure FS where
  entries : List (Path × FNode)
deriving DecidableEq, Repr

/-- Metadata lookup (`fs::metadata`): the node stored at `p`, if any. -/
def FS.lookup (fs : FS) (p : Path) : Option FNode :=
  (fs.entries.find? (fun e => e.1 == p)).map (fun e => e.2)

/-- `Path::exists`. -/
def FS.pathExists (fs : FS) (p : Path) : Bool :=
  (fs.lookup p).isSome

/-- `Path::is_file`: exists and is not a directory. -/
def FS.isFile (fs : FS) (p : Path) : Bool :=
  match fs.lookup p with
  | some n => !n.isDir
  | none => false

/-- `Path::is_dir`: exists and is a directory. -/
def FS.isDirAt (fs : FS) (p : Path) : Bool :=
  match fs.lookup p with
  | some n => n.isDir
  | none => false

/-- `WalkDir::new(root)`: the paths of all entries at or below `root`, in
entry-list order. -/
def FS.walk (fs : FS) (root : Path) : List Path :=
  (fs.entries.filter (fun e => root.isPrefixOf e.1)).map (fun e => e.1)

/-- All prefixes of a path, shortest first (for `create_dir_all`). -/
def prefixesOf (p : Path) : List Path :=
  (List.range (p.length + 1)).map (fun n => p.take n)

/-- `fs::create_dir_all`: add a directory node (size 0, mtime 0) for every
missing prefix of `p`. -/
def FS.createDirAll (fs : FS) (p : Path) : FS :=
  ⟨fs.entries ++
    ((prefixesOf p).filter (fun q => !(fs.pathExists q))).map
      (fun q => (q, ⟨true, 0, 0, []⟩))⟩

/-- Remove the entry at `p`, if present. -/
def FS.removeEntry (fs : FS) (p : Path) : FS :=
  ⟨fs.entries.filter (fun e => e.1 ≠ p)⟩

/-- Replace (or add) the node at `p`. -/
def FS.upsert (fs : FS) (p : Path) (n : FNode) : FS :=
  ⟨(fs.removeEntry p).entries ++ [(p, n)]⟩

/-- `p` is a directory with no entries strictly below it. -/
def FS.isEmptyDirAt (fs : FS) (p : Path) : Bool :=
  (fs.entries.filter (fun e => p.isPrefixOf e.1 && e.1 ≠ p)).isEmpty

/-- Errors: `Err.exit` models `process::exit` (the process dies, nothing is
returned to the caller); `Err.fail` models an `anyhow::Error` returned as
`Err(..)`. -/
inductive Err where
  | exit (code : Nat) (msg : String)
  | fail (msg : String)
deriving DecidableEq, Repr

/-- The mtime slack of `needs_update` (`const TOLERANCE: Duration =
Duration::from_secs(1)` in `src/file_util.rs`), in seconds. -/
def TOLERANCE : Nat := 1

/-- `needs_update` from `src/file_util.rs`: true when `dest` does not
exist; otherwise true when the sizes differ or the source mtime exceeds the
destination mtime by more than `TOLERANCE`; metadata failures are errors. -/
def needs_update (fs : FS) (src dest : Path) : Except Err Bool :=
  if !(fs.pathExists dest) then Except.ok true
  else
    match fs.lookup src, fs.lookup dest with
    | some sm, some dm =>
      if sm.size ≠ dm.size then Except.ok true
      else if dm.mtime + TOLERANCE < sm.mtime then Except.ok true
      else Except.ok false
    | none, _ => Except.error (Err.fail "Failed to get metadata for source file")
    | some _, none => Except.error (Err.fail "Failed to get metadata for destination file")

/-- The `Strategy` enum of `src/item.rs`. -/
inductive Strategy where
  | copy
  | ignored
  | notUpdate
  | delete
deriving DecidableEq, Repr

/-- The `Item` struct of `src/item.rs`: one planned action. -/
structure Item where
  src : Path
  dest : Path
  strategy : Strategy
deriving DecidableEq, Repr

/-- The `BackupModel` enum of `src/job.rs` (default `Full`). -/
inductive BackupModel where
  | full
  | mirror
deriving DecidableEq, Repr

/-- The `CompressFormat` enum of `src/job.rs`. -/
inductive CompressFormat where
  | gzip
  | zip
  | sevenz
  | zstd
  | bzip2
  | xz
  | lz4
  | tar
deriving DecidableEq, Repr

/-- The `Level` enum of `src/job.rs`. -/
inductive Level where
  | fastest
  | faster
  | defaultLevel
  | better
  | best
deriving DecidableEq, Repr

/-- The `Job` struct of `src/job.rs`.  Ignore patterns are modelled as
relative paths (component lists). -/
structure Job where
  id : Nat
  source : Path
  target : Path
  compression : Option CompressFormat
  level : Option Level
  ignoreList : Option (List Path)
  model : Option BackupModel
deriving DecidableEq, Repr

/-- The ignore roots of `get_items`: each pattern joined under the source. -/
def Job.ignorePaths (job : Job) : List Path :=
  (job.ignoreList.getD []).map (fun s => pjoin job.source s)

/-- `get_item` from `src/item.rs`: the single-file planner.  A missing or
non-file source calls `process::exit(1)` (modelled as `Err.exit`). -/
def get_item (fs : FS) (job : Job) : Except Err Item :=
  let src := job.source
  if !(fs.pathExists src) then Except.error (Err.exit 1 "source not exists")
  else if !(fs.isFile src) then Except.error (Err.exit 1 "source not file")
  else
    let dest0 := job.target
    (if fs.pathExists dest0 && fs.isDirAt dest0 then
      match fileName src with
      | some n => Except.ok (pjoin dest0 [n])
      | none => Except.error (Err.fail "Invalid file name")
    else Except.ok dest0).bind (fun dest =>
      match job.model.getD BackupModel.full with
      | BackupModel.full => Except.ok ⟨src, dest, Strategy.copy⟩
      | BackupModel.mirror =>
        (needs_update fs src dest).bind (fun b =>
          if b then Except.ok ⟨src, dest, Strategy.copy⟩
          else Except.ok ⟨src, dest, Strategy.notUpdate⟩))

/-- The decision part of the first (source-scan) loop of `get_items`, once
the relative path `rel` of the entry is known: an ignored entry yields an
`Ignore` item, otherwise `Full` yields `Copy` and `Mirror` consults
`needs_update`. -/
def phase1Core (fs : FS) (model : BackupModel) (ignoreP : List Path)
    (target entry rel : Path) : Except Err Item :=
  if ignoreP.any (fun p => pstarts entry p) then
    Except.ok ⟨entry, pjoin target rel, Strategy.ignored⟩
  else
    match model with
    | BackupModel.full => Except.ok ⟨entry, pjoin target rel, Strategy.copy⟩
    | BackupModel.mirror =>
      (needs_update fs entry (pjoin target rel)).bind (fun b =>
        if b then Except.ok ⟨entry, pjoin target rel, Strategy.copy⟩
        else Except.ok ⟨entry, pjoin target rel, Strategy.notUpdate⟩)

/-- The body of the first (source-scan) loop of `get_items`, for one walked
entry path: `strip_prefix` against the source's parent, then the per-entry
decision. -/
def phase1Item (fs : FS) (model : BackupModel) (ignoreP : List Path)
    (target pre entry : Path) : Except Err Item :=
  match stripPre pre entry with
  | none => Except.error (Err.fail "strip_prefix failed")
  | some rel => phase1Core fs model ignoreP target entry rel

/-- The first (source-scan) loop of `get_items`: one item per walked entry
under the source, in walk order. -/
def phase1 (fs : FS) (job : Job) : Except Err (List Item) :=
  (fs.walk job.source).mapM
    (phase1Item fs (job.model.getD BackupModel.full) job.ignorePaths
      job.target (pparent job.source))

/-- The body of the second (destination-scan) loop of `get_items`, for one
walked destination path: flip a matching `Ignore` item to `Delete`
(`change_delete_strategy` erases the source path), or push a fresh `Delete`
item when no planned item targets this path. -/
def phase2Found (vec : List Item) (i : Nat) : Option Item → List Item
  | some it =>
    if it.strategy = Strategy.ignored then vec.set i ⟨[], it.dest, Strategy.delete⟩
    else vec
  | none => vec

def phase2Apply (vec : List Item) (p : Path) : Option Nat → List Item
  | some i => phase2Found vec i vec[i]?
  | none => vec ++ [⟨[], p, Strategy.delete⟩]

def phase2Step (vec : List Item) (p : Path) : List Item :=
  phase2Apply vec p (vec.findIdx? (fun v => v.dest == p))

/-- `get_items` from `src/item.rs`: the directory-job planner.  A missing
or non-directory source calls `process::exit(1)`; the destination root is
created; the source tree is scanned into per-entry items; then the
destination tree is scanned (for both models) and unplanned destination
entries become `Delete` items. -/
def get_items (fs : FS) (job : Job) : Except Err (List Item) :=
  if !(fs.pathExists job.source) then Except.error (Err.exit 1 "source not exists")
  else if !(fs.isDirAt job.source) then Except.error (Err.exit 1 "source not directory")
  else
    (phase1 (fs.createDirAll job.target) job).bind (fun items =>
      Except.ok (((((fs.createDirAll job.target).walk job.target).filter
        (fun p => p ≠ job.target))).foldl phase2Step items))

/-- Modelled from the spec: `file_util::copy` / `file_util::copy_async` are
referenced by `execute_item` in `src/item.rs` but their definition is not
under `src/`.  Per §4.2 of the spec, `Copy{src,dest}` creates `dest`'s
parent directory tree if missing and then copies the file bytes from `src`
to `dest`, overwriting any existing file, failing when `src` is unreadable.
The copied node keeps the source size and bytes; its modification time
becomes the wall-clock time `now` of the write (as with `std::fs::copy`).
A directory source — which the spec does not cover because its planner
walks only regular files, but which the code's planner does produce — is
modelled as creating a directory node at `dest` with the source metadata
copied and mtime `now`. -/
def copyInto (now : Nat) (fsA : FS) (src dest : Path) : Except Err FS :=
  match fsA.lookup src with
  | none => Except.error (Err.fail "copy: source unreadable")
  | some n =>
    if n.isDir then Except.ok (fsA.upsert dest ⟨true, n.size, now, n.content⟩)
    else Except.ok (fsA.upsert dest ⟨false, n.size, now, n.content⟩)

def copyPath (now : Nat) (fs : FS) (src dest : Path) : Except Err FS :=
  copyInto now
    (if !(fs.pathExists (pparent dest)) then fs.createDirAll (pparent dest) else fs)
    src dest

/-- `execute_item` from `src/item.rs` (and the identical contract of
`execute_item_async`): `Copy` delegates to the copy helper; `Delete`
removes an existing file with `remove_file`, or an existing directory with
the non-recursive `fs::remove_dir` (which fails when the directory is not
empty); a missing destination is a no-op; `Ignore` and `NotUpdate` do
nothing. -/
def execute_item (now : Nat) (fs : FS) (item : Item) : Except Err FS :=
  match item.strategy with
  | Strategy.copy => copyPath now fs item.src item.dest
  | Strategy.delete =>
    if fs.pathExists item.dest then
      if fs.isFile item.dest then Except.ok (fs.removeEntry item.dest)
      else if fs.isDirAt item.dest then
        if fs.isEmptyDirAt item.dest then Except.ok (fs.removeEntry item.dest)
        else Except.error (Err.fail "remove_dir: Directory not empty")
      else Except.ok fs
    else Except.ok fs
  | _ => Except.ok fs

/-- The `FuturesUnordered` dispatch loop of `run_job` / `run_job_async`:
execute the worklist, stopping at the first error (`res?` returns it),
modelled as a sequential left fold over the worklist order. -/
def applyItems (now : Nat) (fs : FS) (items : List Item) : Except Err FS :=
  items.foldlM (execute_item now) fs

/-- The extension each `compress_*` function of `src/file_util.rs` appends
to the source basename: tar-wrapped formats (gzip, zstd, bzip2, xz, lz4)
use `.tar.{ext}` for directories, while zip, 7z and tar use their own
single extension for files and directories alike. -/
def artifactName (srcIsDir : Bool) (nm : String) : CompressFormat → String
  | CompressFormat.gzip => if srcIsDir then nm ++ ".tar.gz" else nm ++ ".gz"
  | CompressFormat.zip => nm ++ ".zip"
  | CompressFormat.sevenz => nm ++ ".7z"
  | CompressFormat.zstd => if srcIsDir then nm ++ ".tar.zst" else nm ++ ".zst"
  | CompressFormat.bzip2 => if srcIsDir then nm ++ ".tar.bz2" else nm ++ ".bz2"
  | CompressFormat.xz => if srcIsDir then nm ++ ".tar.xz" else nm ++ ".xz"
  | CompressFormat.lz4 => if srcIsDir then nm ++ ".tar.lz4" else nm ++ ".lz4"
  | CompressFormat.tar => nm ++ ".tar"

/-- `compression` from `src/file_util.rs`, abstracted to the artifact path
it creates: the precondition checks (source exists, source is a file or
directory, an existing destination must be a directory), the
`create_dir_all(dest)`, and the artifact file named by the per-format
`compress_*` function inside the destination directory.  `get_file_name`
panics when the source has no final component.  The encoder internals are
out of scope (spec §1). -/
def compression (fs : FS) (src dest : Path) (fmt : CompressFormat)
    (_lvl : Level) (_ignore : Option (List Path)) : Except Err Path :=
  if !(fs.pathExists src) then Except.error (Err.fail "Source path does not exist")
  else if !(fs.isDirAt src) && !(fs.isFile src) then
    Except.error (Err.fail "Does not support compression except for files and directories")
  else if fs.pathExists dest && !(fs.isDirAt dest) then
    Except.error (Err.fail "Invalid file type")
  else
    match fileName src with
    | none => Except.error (Err.exit 101 "get_file_name: panicked")
    | some nm => Except.ok (pjoin dest [artifactName (fs.isDirAt src) nm fmt])

/-- `run_job_async` from `src/job.rs`, linearised: the compression branch;
the directory branch (target-is-file check, `get_items`, then the worklist
dispatch, over the filesystem in which the planner created the destination
root); and the single-file branch.  Returns the filesystem after the job,
or the job's error. -/
def run_job_async (now : Nat) (fs : FS) (job : Job) : Except Err FS :=
  match job.compression with
  | some fmt =>
    (compression fs job.source job.target fmt (job.level.getD Level.defaultLevel)
        job.ignoreList).bind (fun artifact =>
      Except.ok ((fs.createDirAll job.target).upsert artifact ⟨false, 0, now, []⟩))
  | none =>
    if fs.isDirAt job.source then
      if fs.pathExists job.target && fs.isFile job.target then
        Except.error (Err.fail "The file already exists and a directory with the same name cannot be created.")
      else
        (get_items fs job).bind (fun items =>
          applyItems now (fs.createDirAll job.target) items)
    else
      (get_item fs job).bind (fun item => execute_item now fs item)

/-- One stderr line of `run_jobs`: the id of a failed job and its error
message. -/
structure Report where
  id : Nat
  msg : String
deriving DecidableEq, Repr

/-- `run_jobs` from `src/job.rs`, linearised: every job of the batch is
spawned against the same initial filesystem snapshot; a job failing with a
returned error is only reported (`eprintln!` with its id) and the loop goes
on; the function itself then returns `Ok(())`, modelled as `Except.ok`
carrying the reports.  A `process::exit` inside any job (`Err.exit`) kills
the process: nothing is returned at all, modelled as `Except.error`. -/
def run_jobs (now : Nat) (fs : FS) : List Job → Except (Nat × String) (List Report)
  | [] => Except.ok []
  | job :: rest =>
    match run_job_async now fs job with
    | Except.ok _ => run_jobs now fs rest
    | Except.error (Err.fail m) =>
      (run_jobs now fs rest).map (fun rs => ⟨job.id, m⟩ :: rs)
    | Except.error (Err.exit c m) => Except.error (c, m)

/-! ## Specification-side definitions

The following definitions are written from the wording of the spec (not
from the source); the theorems below compare the source-derived functions
against them. -/

/-- The metadata size at `p` (0 when absent; only used under hypotheses
that rule absence out). -/
def FS.fsize (fs : FS) (p : Path) : Nat :=
  ((fs.lookup p).map FNode.size).getD 0

/-- The metadata modification time at `p` (0 when absent). -/
def FS.fmtime (fs : FS) (p : Path) : Nat :=
  ((fs.lookup p).map FNode.mtime).getD 0

/-- Spec wording of `needsUpdate`: true if the destination does not exist;
otherwise true exactly when the sizes differ or the source mtime exceeds
the destination mtime by more than the 1-second tolerance. -/
def needsUpdateSpec (fs : FS) (src dest : Path) : Bool :=
  if !(fs.pathExists dest) then true
  else decide (fs.fsize src ≠ fs.fsize dest)
    || decide (fs.fmtime dest + TOLERANCE < fs.fmtime src)

theorem needs_update_eq (fs : FS) (src dest : Path)
    (h : (fs.lookup src).isSome) :
    needs_update fs src dest = Except.ok (needsUpdateSpec fs src dest) := by
  unfold needs_update needsUpdateSpec FS.pathExists FS.fsize FS.fmtime
  cases hs : fs.lookup src with
  | none => rw [hs] at h; simp at h
  | some sm =>
    cases hd : fs.lookup dest with
    | none => simp
    | some dm =>
      simp only [Option.isSome_some, Bool.not_true, Bool.false_eq_true,
        if_false, Option.map_some, Option.getD_some]
      split_ifs with h1 h2 <;> simp_all

/-- C4 (confirmed).  For every pair of paths, `needs_update` returns true
if the destination does not exist, and otherwise returns true exactly when
the sizes differ or the source modification time exceeds the destination
modification time by more than the 1-second tolerance (and false
otherwise); the source metadata must be readable. -/
theorem c4_needs_update_heuristic (fs : FS) (src dest : Path)
    (h : (fs.lookup src).isSome) :
    ∃ b, needs_update fs src dest = Except.ok b ∧
      (b = true ↔ (fs.pathExists dest = false ∨ fs.fsize src ≠ fs.fsize dest
        ∨ fs.fmtime dest + TOLERANCE < fs.fmtime src)) := by
  refine ⟨needsUpdateSpec fs src dest, needs_update_eq fs src dest h, ?_⟩
  unfold needsUpdateSpec
  split_ifs with h1 <;> simp_all

/-- Witness for C4: a concrete source file and an older, same-size
destination, where `needs_update` decides false. -/
theorem c4_needs_update_heuristic_witness :
    ∃ b, needs_update ⟨[(["f"], ⟨false, 4, 10, [1, 2, 3, 4]⟩),
        (["g"], ⟨false, 4, 9, [9, 9, 9, 9]⟩)]⟩ ["f"] ["g"] = Except.ok b ∧
      (b = true ↔ ((FS.mk [(["f"], ⟨false, 4, 10, [1, 2, 3, 4]⟩),
            (["g"], ⟨false, 4, 9, [9, 9, 9, 9]⟩)]).pathExists ["g"] = false
        ∨ (FS.mk [(["f"], ⟨false, 4, 10, [1, 2, 3, 4]⟩),
            (["g"], ⟨false, 4, 9, [9, 9, 9, 9]⟩)]).fsize ["f"]
            ≠ (FS.mk [(["f"], ⟨false, 4, 10, [1, 2, 3, 4]⟩),
            (["g"], ⟨false, 4, 9, [9, 9, 9, 9]⟩)]).fsize ["g"]
        ∨ (FS.mk [(["f"], ⟨false, 4, 10, [1, 2, 3, 4]⟩),
            (["g"], ⟨false, 4, 9, [9, 9, 9, 9]⟩)]).fmtime ["g"] + TOLERANCE
            < (FS.mk [(["f"], ⟨false, 4, 10, [1, 2, 3, 4]⟩),
            (["g"], ⟨false, 4, 9, [9, 9, 9, 9]⟩)]).fmtime ["f"])) :=
  c4_needs_update_heuristic _ ["f"] ["g"] (by decide)

theorem lookup_isSome_of_isFile (fs : FS) (p : Path) (h : fs.isFile p = true) :
    (fs.lookup p).isSome := by
  unfold FS.isFile at h
  cases hl : fs.lookup p with
  | none => rw [hl] at h; simp at h
  | some n => simp

theorem pathExists_of_isFile (fs : FS) (p : Path) (h : fs.isFile p = true) :
    fs.pathExists p = true := by
  unfold FS.pathExists
  rw [Option.isSome_iff_exists]
  rcases Option.isSome_iff_exists.mp (lookup_isSome_of_isFile fs p h) with ⟨n, hn⟩
  exact ⟨n, hn⟩

/-- Spec wording of the single-file planner (§4.1): if the target exists
and is a directory the effective destination is `target/basename(source)`,
otherwise the target itself; model `Full` yields `Copy`, model `Mirror`
yields `Copy` exactly when `needsUpdate` holds and `Skip` (`NotUpdate`)
otherwise. -/
def resolveFileSpec (fs : FS) (job : Job) (nm : String) : Item :=
  let dest := if fs.pathExists job.target && fs.isDirAt job.target then
      pjoin job.target [nm]
    else job.target
  match job.model.getD BackupModel.full with
  | BackupModel.full => ⟨job.source, dest, Strategy.copy⟩
  | BackupModel.mirror =>
    if needsUpdateSpec fs job.source dest then ⟨job.source, dest, Strategy.copy⟩
    else ⟨job.source, dest, Strategy.notUpdate⟩

/-- C9 (confirmed).  For a single-file job whose source exists and is a
regular file (with a final path component), `get_item` resolves exactly as
the spec states: the effective destination is `target/basename(source)`
when the target is an existing directory and `target` otherwise, the
action is `Copy` under `Full`, and under `Mirror` it is `Copy` exactly
when `needsUpdate(source, dest)` holds and `Skip` otherwise. -/
theorem c9_single_file_resolution (fs : FS) (job : Job) (nm : String)
    (hfile : fs.isFile job.source = true)
    (hnm : fileName job.source = some nm) :
    get_item fs job = Except.ok (resolveFileSpec fs job nm) := by
  unfold get_item resolveFileSpec
  simp only [pathExists_of_isFile fs job.source hfile, hfile, Bool.not_true,
    Bool.false_eq_true, if_false]
  by_cases hdir : (fs.pathExists job.target && fs.isDirAt job.target) = true
  · rw [hdir, if_pos rfl, hnm]
    simp only [Except.bind]
    cases hm : job.model.getD BackupModel.full with
    | full => rfl
    | mirror =>
      rw [needs_update_eq fs job.source _ (lookup_isSome_of_isFile fs job.source hfile)]
      simp only [Except.bind]
      split_ifs <;> rfl
  · rw [Bool.not_eq_true] at hdir
    rw [hdir]
    simp only [Bool.false_eq_true, if_false, Except.bind]
    cases hm : job.model.getD BackupModel.full with
    | full => rfl
    | mirror =>
      rw [needs_update_eq fs job.source _ (lookup_isSome_of_isFile fs job.source hfile)]
      simp only [Except.bind]
      split_ifs <;> rfl

/-- Witness for C9: a concrete file copied into an existing target
directory under model `Mirror`. -/
theorem c9_single_file_resolution_witness :
    get_item ⟨[(["f"], ⟨false, 4, 10, [1, 2, 3, 4]⟩), (["t"], ⟨true, 0, 5, []⟩)]⟩
        ⟨1, ["f"], ["t"], none, none, none, some BackupModel.mirror⟩
      = Except.ok (resolveFileSpec
        ⟨[(["f"], ⟨false, 4, 10, [1, 2, 3, 4]⟩), (["t"], ⟨true, 0, 5, []⟩)]⟩
        ⟨1, ["f"], ["t"], none, none, none, some BackupModel.mirror⟩ "f") :=
  c9_single_file_resolution _ _ "f" (by decide) (by decide)

theorem find_filter_ne (l : List (Path × FNode)) (p q : Path) (h : q ≠ p) :
    (l.filter (fun e => e.1 ≠ p)).find? (fun e => e.1 == q)
      = l.find? (fun e => e.1 == q) := by
  induction l with
  | nil => rfl
  | cons e l ih =>
    by_cases hep : e.1 = p
    · have h2 : (e.1 == q) = false := by
        rw [hep, beq_eq_false_iff_ne]
        exact Ne.symm h
      have h3 : decide (e.1 ≠ p) = false := by simp [hep]
      simp only [List.filter_cons, h3, Bool.false_eq_true, if_false, ih]
      rw [List.find?_cons, h2]
    · have h3 : decide (e.1 ≠ p) = true := by simp [hep]
      simp only [List.filter_cons, h3, if_true]
      rw [List.find?_cons, List.find?_cons]
      cases hq : (e.1 == q)
      · exact ih
      · rfl

theorem removeEntry_lookup_self (fs : FS) (p : Path) :
    (fs.removeEntry p).lookup p = none := by
  unfold FS.removeEntry FS.lookup
  have hnone : (fs.entries.filter (fun e => e.1 ≠ p)).find? (fun e => e.1 == p)
      = none := by
    rw [List.find?_eq_none]
    intro a ha
    have h2 := (List.mem_filter.mp ha).2
    simp only [decide_eq_true_eq] at h2
    simpa using h2
  rw [hnone]
  rfl

theorem removeEntry_lookup_other (fs : FS) (p q : Path) (h : q ≠ p) :
    (fs.removeEntry p).lookup q = fs.lookup q := by
  unfold FS.removeEntry FS.lookup
  rw [find_filter_ne fs.entries p q h]

theorem removeEntry_pathExists_self (fs : FS) (p : Path) :
    (fs.removeEntry p).pathExists p = false := by
  unfold FS.pathExists
  rw [removeEntry_lookup_self]
  rfl

theorem pathExists_of_isDirAt (fs : FS) (p : Path) (h : fs.isDirAt p = true) :
    fs.pathExists p = true := by
  unfold FS.isDirAt at h
  unfold FS.pathExists
  cases hl : fs.lookup p with
  | none => rw [hl] at h; simp at h
  | some n => simp

theorem isFile_eq_false_of_isDirAt (fs : FS) (p : Path) (h : fs.isDirAt p = true) :
    fs.isFile p = false := by
  unfold FS.isDirAt at h
  unfold FS.isFile
  cases hl : fs.lookup p with
  | none => rfl
  | some n =>
    rw [hl] at h
    have h2 : n.isDir = true := h
    simp [h2]

/-- C3 (corrected).  Delete semantics of the executor: a missing
destination is a no-op success; an existing regular file is removed (the
entry disappears, every other path is untouched); an existing directory is
removed only when it is empty, because the code uses the non-recursive
`fs::remove_dir` / `tokio::fs::remove_dir`; a non-empty directory makes the
action fail instead of being removed recursively. -/
theorem c3_delete_removes_nonrecursively (now : Nat) (fs : FS) (s d : Path) :
    (fs.pathExists d = false →
      execute_item now fs ⟨s, d, Strategy.delete⟩ = Except.ok fs)
    ∧ (fs.isFile d = true →
      ∃ fs2, execute_item now fs ⟨s, d, Strategy.delete⟩ = Except.ok fs2
        ∧ fs2.pathExists d = false ∧ ∀ q, q ≠ d → fs2.lookup q = fs.lookup q)
    ∧ (fs.isDirAt d = true → fs.isEmptyDirAt d = true →
      ∃ fs2, execute_item now fs ⟨s, d, Strategy.delete⟩ = Except.ok fs2
        ∧ fs2.pathExists d = false ∧ ∀ q, q ≠ d → fs2.lookup q = fs.lookup q)
    ∧ (fs.isDirAt d = true → fs.isEmptyDirAt d = false →
      ∃ m, execute_item now fs ⟨s, d, Strategy.delete⟩
        = Except.error (Err.fail m)) := by
  refine ⟨?_, ?_, ?_, ?_⟩
  · intro h
    unfold execute_item
    simp [h]
  · intro h
    refine ⟨fs.removeEntry d, ?_, removeEntry_pathExists_self fs d,
      fun q hq => removeEntry_lookup_other fs d q hq⟩
    unfold execute_item
    simp [pathExists_of_isFile fs d h, h]
  · intro h hemp
    refine ⟨fs.removeEntry d, ?_, removeEntry_pathExists_self fs d,
      fun q hq => removeEntry_lookup_other fs d q hq⟩
    unfold execute_item
    simp [pathExists_of_isDirAt fs d h, isFile_eq_false_of_isDirAt fs d h, h, hemp]
  · intro h hemp
    refine ⟨"remove_dir: Directory not empty", ?_⟩
    unfold execute_item
    simp [pathExists_of_isDirAt fs d h, isFile_eq_false_of_isDirAt fs d h, h, hemp]

/-- Witness for C3: deleting a concrete existing regular file removes it. -/
theorem c3_delete_removes_nonrecursively_witness :
    ∃ fs2, execute_item 0 ⟨[(["t"], ⟨true, 0, 5, []⟩), (["t", "x"], ⟨false, 1, 5, [1]⟩)]⟩
          ⟨[], ["t", "x"], Strategy.delete⟩ = Except.ok fs2
      ∧ fs2.pathExists ["t", "x"] = false
      ∧ ∀ q, q ≠ ["t", "x"] →
          fs2.lookup q = FS.lookup ⟨[(["t"], ⟨true, 0, 5, []⟩),
            (["t", "x"], ⟨false, 1, 5, [1]⟩)]⟩ q :=
  (c3_delete_removes_nonrecursively 0
    ⟨[(["t"], ⟨true, 0, 5, []⟩), (["t", "x"], ⟨false, 1, 5, [1]⟩)]⟩
    [] ["t", "x"]).2.1 (by decide)

/-- Counterexample for C3: the destination is an existing directory with a
file inside it, yet the Delete action fails (with the `remove_dir` error)
instead of removing the directory and its contents recursively and
returning success. -/
theorem c3_recursive_delete_cex :
    FS.isDirAt ⟨[(["d"], ⟨true, 0, 5, []⟩), (["d", "x"], ⟨false, 1, 5, [1]⟩)]⟩ ["d"] = true
    ∧ FS.isFile ⟨[(["d"], ⟨true, 0, 5, []⟩), (["d", "x"], ⟨false, 1, 5, [1]⟩)]⟩ ["d", "x"] = true
    ∧ execute_item 0 ⟨[(["d"], ⟨true, 0, 5, []⟩), (["d", "x"], ⟨false, 1, 5, [1]⟩)]⟩
        ⟨[], ["d"], Strategy.delete⟩
      = Except.error (Err.fail "remove_dir: Directory not empty") := by
  refine ⟨by decide, by decide, by rfl⟩

/-- Spec wording of the per-format extension (§6): gz, zip, 7z, zst, bz2,
xz, lz4, tar. -/
def fmtExt : CompressFormat → String
  | CompressFormat.gzip => "gz"
  | CompressFormat.zip => "zip"
  | CompressFormat.sevenz => "7z"
  | CompressFormat.zstd => "zst"
  | CompressFormat.bzip2 => "bz2"
  | CompressFormat.xz => "xz"
  | CompressFormat.lz4 => "lz4"
  | CompressFormat.tar => "tar"

/-- Spec wording of the artifact name (§6): `{basename}.{ext}` for files
and `{basename}.tar.{ext}` for directories, claimed for every format. -/
def artifactNameSpec (srcIsDir : Bool) (nm : String) (fmt : CompressFormat) : String :=
  if srcIsDir then nm ++ ".tar." ++ fmtExt fmt else nm ++ "." ++ fmtExt fmt

/-- Amended wording of the artifact name: the tar-wrapping formats (gzip,
zstd, bzip2, xz, lz4) follow the spec's `{basename}.tar.{ext}` rule for
directories, but zip, 7z and tar archive the directory natively and use
plain `{basename}.{ext}` for directories as well. -/
def artifactNameAmended (srcIsDir : Bool) (nm : String) (fmt : CompressFormat) : String :=
  match fmt with
  | CompressFormat.zip => nm ++ "." ++ fmtExt fmt
  | CompressFormat.sevenz => nm ++ "." ++ fmtExt fmt
  | CompressFormat.tar => nm ++ "." ++ fmtExt fmt
  | _ => artifactNameSpec srcIsDir nm fmt

theorem artifactName_eq_amended (srcIsDir : Bool) (nm : String) (fmt : CompressFormat) :
    artifactName srcIsDir nm fmt = artifactNameAmended srcIsDir nm fmt := by
  cases fmt <;> cases srcIsDir <;>
    simp [artifactName, artifactNameAmended, artifactNameSpec, fmtExt,
      String.append_assoc]

/-- C6 (corrected).  A successful compression call produces exactly one
artifact inside the destination directory, but its name follows the
amended rule: `{basename(source)}.{ext}` for files for all formats, and
for directories `{basename(source)}.tar.{ext}` only for the tar-wrapping
formats (gzip, zstd, bzip2, xz, lz4), while zip, 7z and tar name the
directory artifact `{basename(source)}.{ext}` with no `.tar` infix. -/
theorem c6_artifact_naming (fs : FS) (src dest : Path) (fmt : CompressFormat)
    (lvl : Level) (ign : Option (List Path)) (nm : String)
    (hsrc : fs.pathExists src = true)
    (hkind : fs.isDirAt src = true ∨ fs.isFile src = true)
    (hdest : fs.pathExists dest = false ∨ fs.isDirAt dest = true)
    (hnm : fileName src = some nm) :
    compression fs src dest fmt lvl ign
      = Except.ok (pjoin dest [artifactNameAmended (fs.isDirAt src) nm fmt]) := by
  unfold compression
  have hkindb : (!fs.isDirAt src && !fs.isFile src) = false := by
    rcases hkind with h | h <;> simp [h]
  have hdestb : (fs.pathExists dest && !fs.isDirAt dest) = false := by
    rcases hdest with h | h <;> simp [h]
  rw [hsrc, hkindb, hdestb, hnm]
  simp [artifactName_eq_amended]

/-- Witness for C6: compressing a concrete directory with zip yields the
`dir.zip` artifact inside the destination. -/
theorem c6_artifact_naming_witness :
    compression ⟨[(["dir"], ⟨true, 0, 5, []⟩), (["dir", "f"], ⟨false, 1, 5, [8]⟩)]⟩
        ["dir"] ["out"] CompressFormat.zip Level.defaultLevel none
      = Except.ok (pjoin ["out"] [artifactNameAmended
          (FS.isDirAt ⟨[(["dir"], ⟨true, 0, 5, []⟩), (["dir", "f"], ⟨false, 1, 5, [8]⟩)]⟩ ["dir"])
          "dir" CompressFormat.zip]) :=
  c6_artifact_naming _ ["dir"] ["out"] CompressFormat.zip Level.defaultLevel none "dir"
    (by decide) (Or.inl (by decide)) (Or.inl (by decide)) (by decide)

/-- Counterexample for C6: for a directory source and the zip format the
artifact is `{basename}.zip`, not the spec's `{basename}.tar.zip`. -/
theorem c6_dir_zip_naming_cex :
    compression ⟨[(["d"], ⟨true, 0, 5, []⟩), (["d", "f"], ⟨false, 1, 5, [8]⟩)]⟩
        ["d"] ["out"] CompressFormat.zip Level.defaultLevel none
      = Except.ok ["out", "d.zip"]
    ∧ FS.isDirAt ⟨[(["d"], ⟨true, 0, 5, []⟩), (["d", "f"], ⟨false, 1, 5, [8]⟩)]⟩ ["d"] = true
    ∧ artifactNameSpec true "d" CompressFormat.zip = "d.tar.zip"
    ∧ compression ⟨[(["d"], ⟨true, 0, 5, []⟩), (["d", "f"], ⟨false, 1, 5, [8]⟩)]⟩
        ["d"] ["out"] CompressFormat.zip Level.defaultLevel none
      ≠ Except.ok (pjoin ["out"] [artifactNameSpec true "d" CompressFormat.zip]) := by
  refine ⟨by rfl, by decide, by decide, ?_⟩
  intro hcontra
  have h1 : compression ⟨[(["d"], ⟨true, 0, 5, []⟩), (["d", "f"], ⟨false, 1, 5, [8]⟩)]⟩
      ["d"] ["out"] CompressFormat.zip Level.defaultLevel none
      = Except.ok ["out", "d.zip"] := by rfl
  rw [h1] at hcontra
  have h2 : (["out", "d.zip"] : Path) = ["out", "d.tar.zip"] := by
    have h3 : artifactNameSpec true "d" CompressFormat.zip = "d.tar.zip" := by decide
    rw [← h3]
    exact Except.ok.inj hcontra
  simp at h2

/-- Whether a job run ended in `process::exit` (as opposed to returning
`Ok` or a reportable error). -/
def isExitResult {α : Type} : Except Err α → Bool
  | Except.error (Err.exit _ _) => true
  | _ => false

/-- A concrete filesystem for batch-runner claims: a source directory with
one file, and `t1` an existing regular file (so a directory job targeting
`t1` fails with a returned error). -/
def batchFS : FS :=
  ⟨[(["s"], ⟨true, 0, 5, []⟩), (["s", "f"], ⟨false, 1, 5, [8]⟩),
    (["t1"], ⟨false, 1, 5, [0]⟩)]⟩

/-- A directory job whose target is an existing regular file: its run
returns an error (no `process::exit`). -/
def jobTargetFile : Job := ⟨1, ["s"], ["t1"], none, none, none, none⟩

/-- A directory job that succeeds on `batchFS`. -/
def jobGood : Job := ⟨2, ["s"], ["t2"], none, none, none, none⟩

/-- A job whose source path does not exist: its run calls
`process::exit(1)`. -/
def jobMissingSource : Job := ⟨1, ["missing"], ["t3"], none, none, none, none⟩

/-- C2 (corrected).  A job that fails with a returned error is reported
with its id and message, and the remaining jobs of the batch are processed
exactly as they would have been without it (failure isolation at job
granularity) — this holds for returned errors, not for the
`process::exit` precondition path. -/
theorem c2_returned_error_isolated (now : Nat) (fs : FS) (j : Job)
    (rest : List Job) (m : String)
    (h : run_job_async now fs j = Except.error (Err.fail m)) :
    run_jobs now fs (j :: rest)
      = (run_jobs now fs rest).map (fun rs => ⟨j.id, m⟩ :: rs) := by
  conv_lhs => rw [run_jobs]
  rw [h]

/-- Witness for C2: in a concrete two-job batch whose first job fails with
a returned error (its target is an existing file), the batch reports the
failure under id 1 and still runs the second job. -/
theorem c2_returned_error_isolated_witness :
    run_jobs 3 batchFS [jobTargetFile, jobGood]
      = (run_jobs 3 batchFS [jobGood]).map (fun rs =>
          ⟨jobTargetFile.id,
            "The file already exists and a directory with the same name cannot be created."⟩ :: rs) :=
  c2_returned_error_isolated 3 batchFS jobTargetFile [jobGood] _ (by rfl)

/-- Counterexample for C2: in a batch of two jobs where job 1's source
path does not exist (the claim's own example of a failing precondition),
`get_items` calls `process::exit(1)`, the whole process dies, nothing is
reported under job 1's id and job 2 never completes — `run_jobs` ends in
the exit state instead of any `Ok` report list. -/
theorem c2_missing_source_aborts_batch_cex :
    batchFS.pathExists jobMissingSource.source = false
    ∧ run_jobs 0 batchFS [jobMissingSource, jobGood]
      = Except.error (1, "source not exists") := by
  exact ⟨by decide, by rfl⟩

/-- C10 (confirmed).  Once no job hits the `process::exit` path, the batch
runner returns `Ok` unconditionally: per-job failures are diverted into
the printed reports (each report naming a job of the batch and the error
its run returned) and are never propagated into the returned `Result`. -/
theorem c10_run_jobs_returns_ok (now : Nat) (fs : FS) (jobs : List Job)
    (h : ∀ j ∈ jobs, isExitResult (run_job_async now fs j) = false) :
    ∃ rs, run_jobs now fs jobs = Except.ok rs
      ∧ ∀ r ∈ rs, ∃ j ∈ jobs, ∃ m,
          run_job_async now fs j = Except.error (Err.fail m)
          ∧ r = ⟨j.id, m⟩ := by
  induction jobs with
  | nil => exact ⟨[], rfl, by simp⟩
  | cons j rest ih =>
    rcases ih (fun j2 hj2 => h j2 (List.mem_cons_of_mem j hj2)) with ⟨rs, hok, hrep⟩
    cases hr : run_job_async now fs j with
    | ok fs2 =>
      refine ⟨rs, ?_, ?_⟩
      · unfold run_jobs
        rw [hr, hok]
      · intro r hrmem
        rcases hrep r hrmem with ⟨j2, hj2, m, hm, hrm⟩
        exact ⟨j2, List.mem_cons_of_mem j hj2, m, hm, hrm⟩
    | error e =>
      cases e with
      | exit c m =>
        have hx := h j (List.mem_cons_self j rest)
        rw [hr] at hx
        simp [isExitResult] at hx
      | fail m =>
        refine ⟨⟨j.id, m⟩ :: rs, ?_, ?_⟩
        · unfold run_jobs
          rw [hr, hok]
          rfl
        · intro r hrmem
          rcases List.mem_cons.mp hrmem with hrm | hrm
          · exact ⟨j, List.mem_cons_self j rest, m, hr, hrm⟩
          · rcases hrep r hrm with ⟨j2, hj2, m2, hm2, hrm2⟩
            exact ⟨j2, List.mem_cons_of_mem j hj2, m2, hm2, hrm2⟩

/-- Witness for C10: a concrete batch whose first job fails with a
returned error still makes `run_jobs` return `Ok`, with the failure only
in the reports. -/
theorem c10_run_jobs_returns_ok_witness :
    ∃ rs, run_jobs 3 batchFS [jobTargetFile, jobGood] = Except.ok rs
      ∧ ∀ r ∈ rs, ∃ j ∈ [jobTargetFile, jobGood], ∃ m,
          run_job_async 3 batchFS j = Except.error (Err.fail m)
          ∧ r = ⟨j.id, m⟩ :=
  c10_run_jobs_returns_ok 3 batchFS [jobTargetFile, jobGood] (by decide)

theorem mem_set_of_getElem_ne (l : List Item) (i : Nat) (x it : Item)
    (hmem : it ∈ l) (hget : l[i]? ≠ some it) :
    it ∈ l.set i x := by
  rcases List.mem_iff_getElem?.mp hmem with ⟨j, hj⟩
  have hij : i ≠ j := by
    intro hcontra
    rw [hcontra] at hget
    exact hget hj
  exact List.mem_iff_getElem?.mpr ⟨j, by rw [List.getElem?_set_ne hij]; exact hj⟩

theorem phase2Step_preserves_delete (vec : List Item) (q : Path) (it : Item)
    (hmem : it ∈ vec) (hdel : it.strategy = Strategy.delete) :
    it ∈ phase2Step vec q := by
  unfold phase2Step
  cases hidx : vec.findIdx? (fun v => v.dest == q) with
  | none =>
    simp only [phase2Apply]
    exact List.mem_append_left _ hmem
  | some i =>
    simp only [phase2Apply]
    cases hget : vec[i]? with
    | none => simp only [phase2Found]; exact hmem
    | some found =>
      simp only [phase2Found]
      by_cases hstrat : found.strategy = Strategy.ignored
      · rw [if_pos hstrat]
        apply mem_set_of_getElem_ne vec i _ it hmem
        rw [hget]
        intro hcontra
        have heq : found = it := Option.some.inj hcontra
        rw [heq, hdel] at hstrat
        cases hstrat
      · rw [if_neg hstrat]
        exact hmem

theorem foldl_phase2_preserves_delete (ps : List Path) (vec : List Item) (it : Item)
    (hmem : it ∈ vec) (hdel : it.strategy = Strategy.delete) :
    it ∈ ps.foldl phase2Step vec := by
  induction ps generalizing vec with
  | nil => exact hmem
  | cons q ps ih =>
    rw [List.foldl_cons]
    exact ih _ (phase2Step_preserves_delete vec q it hmem hdel)

theorem phase2Step_invariant (vec : List Item) (q p : Path)
    (hP : (⟨[], p, Strategy.delete⟩ : Item) ∈ vec ∨ ∀ it ∈ vec, it.dest ≠ p) :
    (⟨[], p, Strategy.delete⟩ : Item) ∈ phase2Step vec q
      ∨ ∀ it ∈ phase2Step vec q, it.dest ≠ p := by
  rcases hP with hmem | hnone
  · exact Or.inl (phase2Step_preserves_delete vec q _ hmem rfl)
  · unfold phase2Step
    cases hidx : vec.findIdx? (fun v => v.dest == q) with
    | none =>
      simp only [phase2Apply]
      by_cases hqp : q = p
      · subst hqp
        exact Or.inl (List.mem_append_right _ (List.mem_singleton_self _))
      · refine Or.inr (fun it hit => ?_)
        rcases List.mem_append.mp hit with h1 | h1
        · exact hnone it h1
        · rw [List.mem_singleton.mp h1]
          exact hqp
    | some i =>
      simp only [phase2Apply]
      cases hget : vec[i]? with
      | none => simp only [phase2Found]; exact Or.inr hnone
      | some found =>
        simp only [phase2Found]
        by_cases hstrat : found.strategy = Strategy.ignored
        · rw [if_pos hstrat]
          refine Or.inr (fun it hit => ?_)
          rcases List.mem_or_eq_of_mem_set hit with h1 | h1
          · exact hnone it h1
          · rw [h1]
            exact hnone found (List.getElem?_mem hget)
        · rw [if_neg hstrat]
          exact Or.inr hnone

theorem foldl_phase2_mem_delete (ps : List Path) (vec : List Item) (p : Path)
    (hp : p ∈ ps)
    (hP : (⟨[], p, Strategy.delete⟩ : Item) ∈ vec ∨ ∀ it ∈ vec, it.dest ≠ p) :
    (⟨[], p, Strategy.delete⟩ : Item) ∈ ps.foldl phase2Step vec := by
  induction ps generalizing vec with
  | nil => cases hp
  | cons q ps ih =>
    rw [List.foldl_cons]
    rcases List.mem_cons.mp hp with rfl | hmem
    · have hstep : (⟨[], p, Strategy.delete⟩ : Item) ∈ phase2Step vec p := by
        rcases hP with hmem2 | hnone
        · exact phase2Step_preserves_delete vec p _ hmem2 rfl
        · unfold phase2Step
          have hnoidx : vec.findIdx? (fun v => v.dest == p) = none := by
            rw [List.findIdx?_eq_none_iff]
            intro v hv
            simpa using hnone v hv
          rw [hnoidx]
          simp only [phase2Apply]
          exact List.mem_append_right _ (List.mem_singleton_self _)
      exact foldl_phase2_preserves_delete ps _ _ hstep rfl
    · exact ih (phase2Step vec q) hmem (phase2Step_invariant vec q p hP)

/-- C1 (corrected).  The destination-enumeration pass of `get_items` runs
for both backup models — it is not skipped under `Full` — and any walked
destination entry other than the root that is not the planned destination
of any source-scan item becomes a `Delete` action in the plan, under
`Full` exactly as under `Mirror`. -/
theorem c1_unseen_dest_becomes_delete (fs : FS) (job : Job)
    (plan items : List Item) (p : Path)
    (hplan : get_items fs job = Except.ok plan)
    (hitems : phase1 (fs.createDirAll job.target) job = Except.ok items)
    (hp : p ∈ ((fs.createDirAll job.target).walk job.target).filter
      (fun q => q ≠ job.target))
    (hnd : ∀ it ∈ items, it.dest ≠ p) :
    (⟨[], p, Strategy.delete⟩ : Item) ∈ plan := by
  unfold get_items at hplan
  by_cases hA : (!fs.pathExists job.source) = true
  · rw [if_pos hA] at hplan
    cases hplan
  · rw [if_neg hA] at hplan
    by_cases hB : (!fs.isDirAt job.source) = true
    · rw [if_pos hB] at hplan
      cases hplan
    · rw [if_neg hB, hitems] at hplan
      have hplan2 := Except.ok.inj hplan
      rw [← hplan2]
      exact foldl_phase2_mem_delete _ _ _ hp (Or.inr hnd)

/-- Witness for C1: a concrete `Full`-model directory job with one extra
file under the destination root; the plan contains a `Delete` for it. -/
theorem c1_unseen_dest_becomes_delete_witness :
    (⟨[], ["d", "x"], Strategy.delete⟩ : Item)
      ∈ [Item.mk ["s"] ["d", "s"] Strategy.copy,
          Item.mk ["s", "a"] ["d", "s", "a"] Strategy.copy,
          Item.mk [] ["d", "x"] Strategy.delete] :=
  c1_unseen_dest_becomes_delete
    ⟨[(["s"], ⟨true, 0, 5, []⟩), (["s", "a"], ⟨false, 3, 5, [1, 2, 3]⟩),
      (["d"], ⟨true, 0, 5, []⟩), (["d", "x"], ⟨false, 2, 5, [7, 7]⟩)]⟩
    ⟨1, ["s"], ["d"], none, none, none, some BackupModel.full⟩
    [Item.mk ["s"] ["d", "s"] Strategy.copy,
      Item.mk ["s", "a"] ["d", "s", "a"] Strategy.copy,
      Item.mk [] ["d", "x"] Strategy.delete]
    [Item.mk ["s"] ["d", "s"] Strategy.copy,
      Item.mk ["s", "a"] ["d", "s", "a"] Strategy.copy]
    ["d", "x"] (by rfl) (by rfl) (by decide) (by decide)

/-- Counterexample for C1: a `Full`-model directory job over a concrete
filesystem with an extra file `d/x` under the destination root: the plan
produced by `get_items` contains `Delete(d/x)` — under `Full` the
destination enumeration is not skipped and a `Delete` action is
produced. -/
theorem c1_full_never_deletes_cex :
    (Job.mk 1 ["s"] ["d"] none none none (some BackupModel.full)).model
      = some BackupModel.full
    ∧ get_items
        ⟨[(["s"], ⟨true, 0, 5, []⟩), (["s", "a"], ⟨false, 3, 5, [1, 2, 3]⟩),
          (["d"], ⟨true, 0, 5, []⟩), (["d", "x"], ⟨false, 2, 5, [7, 7]⟩)]⟩
        ⟨1, ["s"], ["d"], none, none, none, some BackupModel.full⟩
      = Except.ok [Item.mk ["s"] ["d", "s"] Strategy.copy,
          Item.mk ["s", "a"] ["d", "s", "a"] Strategy.copy,
          Item.mk [] ["d", "x"] Strategy.delete]
    ∧ (Item.mk [] ["d", "x"] Strategy.delete).strategy = Strategy.delete := by
  exact ⟨rfl, by rfl, rfl⟩

/-- The total per-entry planning decision of the source scan, as a plain
function: the item planned for walked entry `p` has source `p`, destination
`target ++ (p minus the prefix pre)` (where `pre` is the source's parent),
and strategy `Ignore` under an ignore pattern, otherwise `Copy` under
`Full`, and `Copy`/`NotUpdate` by freshness under `Mirror`. -/
def planEntry (fs : FS) (model : BackupModel) (ignoreP : List Path)
    (target pre p : Path) : Item :=
  if ignoreP.any (fun q => pstarts p q) then
    ⟨p, pjoin target (p.drop pre.length), Strategy.ignored⟩
  else
    match model with
    | BackupModel.full => ⟨p, pjoin target (p.drop pre.length), Strategy.copy⟩
    | BackupModel.mirror =>
      if needsUpdateSpec fs p (pjoin target (p.drop pre.length)) then
        ⟨p, pjoin target (p.drop pre.length), Strategy.copy⟩
      else ⟨p, pjoin target (p.drop pre.length), Strategy.notUpdate⟩

theorem planEntry_src (fs : FS) (model : BackupModel) (ignoreP : List Path)
    (target pre p : Path) :
    (planEntry fs model ignoreP target pre p).src = p := by
  unfold planEntry
  cases model <;> split_ifs <;> rfl

theorem planEntry_dest (fs : FS) (model : BackupModel) (ignoreP : List Path)
    (target pre p : Path) :
    (planEntry fs model ignoreP target pre p).dest
      = pjoin target (p.drop pre.length) := by
  unfold planEntry
  cases model <;> split_ifs <;> rfl

theorem phase1Item_eq (fs : FS) (model : BackupModel) (ignoreP : List Path)
    (target pre p : Path)
    (hpre : pre.isPrefixOf p = true) (hsome : (fs.lookup p).isSome) :
    phase1Item fs model ignoreP target pre p
      = Except.ok (planEntry fs model ignoreP target pre p) := by
  unfold phase1Item
  have hstrip : stripPre pre p = some (p.drop pre.length) := by
    unfold stripPre
    rw [if_pos hpre]
  rw [hstrip]
  show phase1Core fs model ignoreP target p (p.drop pre.length)
    = Except.ok (planEntry fs model ignoreP target pre p)
  unfold phase1Core planEntry
  by_cases hig : (ignoreP.any (fun q => pstarts p q)) = true
  · rw [if_pos hig, if_pos hig]
  · rw [if_neg hig, if_neg hig]
    cases model with
    | full => rfl
    | mirror =>
      rw [needs_update_eq fs p _ hsome]
      simp only [Except.bind]
      split_ifs <;> rfl

theorem mapM_ok_of_forall {α β : Type} (f : α → Except Err β) (g : α → β)
    (l : List α) (h : ∀ a ∈ l, f a = Except.ok (g a)) :
    l.mapM f = Except.ok (l.map g) := by
  induction l with
  | nil => rfl
  | cons a l ih =>
    rw [List.mapM_cons, h a (List.mem_cons_self a l),
      ih (fun b hb => h b (List.mem_cons_of_mem a hb))]
    rfl

theorem walk_mem_facts (fs : FS) (root p : Path) (hp : p ∈ fs.walk root) :
    root.isPrefixOf p = true ∧ (fs.lookup p).isSome := by
  unfold FS.walk at hp
  rcases List.mem_map.mp hp with ⟨e, he, rfl⟩
  have hf := List.mem_filter.mp he
  refine ⟨hf.2, ?_⟩
  unfold FS.lookup
  cases hfind : fs.entries.find? (fun y => y.1 == e.1) with
  | none =>
    rw [List.find?_eq_none] at hfind
    exact absurd (by simp : (e.1 == e.1) = true) (by simpa using hfind e hf.1)
  | some x => rfl

theorem pparent_isPrefixOf (p q : Path) (h : p.isPrefixOf q = true) :
    (pparent p).isPrefixOf q = true := by
  rw [List.isPrefixOf_iff_prefix] at h ⊢
  exact (List.dropLast_prefix p).trans h

theorem phase1_eq (fs : FS) (job : Job) :
    phase1 fs job = Except.ok ((fs.walk job.source).map
      (planEntry fs (job.model.getD BackupModel.full) job.ignorePaths
        job.target (pparent job.source))) := by
  unfold phase1
  apply mapM_ok_of_forall
  intro p hp
  have hf := walk_mem_facts fs job.source p hp
  exact phase1Item_eq fs _ _ job.target (pparent job.source) p
    (pparent_isPrefixOf job.source p hf.1) hf.2

/-- An item carrying an effective per-path decision of the source scan: a
`Copy` or a `NotUpdate` (spec `Skip`). -/
def isCopyOrSkip (it : Item) : Bool :=
  it.strategy == Strategy.copy || it.strategy == Strategy.notUpdate

theorem isCopyOrSkip_delete (s d : Path) :
    isCopyOrSkip ⟨s, d, Strategy.delete⟩ = false := rfl

theorem filter_set_false (l : List Item) (i : Nat) (x old : Item)
    (pred : Item → Bool) (hget : l[i]? = some old)
    (hold : pred old = false) (hx : pred x = false) :
    (l.set i x).filter pred = l.filter pred := by
  induction l generalizing i with
  | nil => rfl
  | cons a l ih =>
    cases i with
    | zero =>
      have ha : a = old := by simpa using hget
      rw [List.set_cons_zero]
      rw [List.filter_cons, List.filter_cons, hx, ha, hold]
      simp
    | succ n =>
      have hget2 : l[n]? = some old := by simpa using hget
      rw [List.set_cons_succ]
      rw [List.filter_cons, List.filter_cons, ih n hget2]

theorem phase2Step_filter (vec : List Item) (q : Path) (pred : Item → Bool)
    (hdel : ∀ it : Item, it.strategy = Strategy.delete → pred it = false)
    (hign : ∀ it : Item, it.strategy = Strategy.ignored → pred it = false) :
    (phase2Step vec q).filter pred = vec.filter pred := by
  unfold phase2Step
  cases hidx : vec.findIdx? (fun v => v.dest == q) with
  | none =>
    simp only [phase2Apply]
    rw [List.filter_append, List.filter_cons]
    rw [hdel ⟨[], q, Strategy.delete⟩ rfl]
    simp
  | some i =>
    simp only [phase2Apply]
    cases hget : vec[i]? with
    | none => simp only [phase2Found]
    | some found =>
      simp only [phase2Found]
      by_cases hstrat : found.strategy = Strategy.ignored
      · rw [if_pos hstrat]
        exact filter_set_false vec i _ found pred hget (hign found hstrat)
          (hdel ⟨[], found.dest, Strategy.delete⟩ rfl)
      · rw [if_neg hstrat]

theorem foldl_phase2_filter (ps : List Path) (vec : List Item)
    (pred : Item → Bool)
    (hdel : ∀ it : Item, it.strategy = Strategy.delete → pred it = false)
    (hign : ∀ it : Item, it.strategy = Strategy.ignored → pred it = false) :
    (ps.foldl phase2Step vec).filter pred = vec.filter pred := by
  induction ps generalizing vec with
  | nil => rfl
  | cons q ps ih =>
    rw [List.foldl_cons, ih (phase2Step vec q),
      phase2Step_filter vec q pred hdel hign]

theorem isCopyOrSkip_false_of_delete (it : Item)
    (h : it.strategy = Strategy.delete) : isCopyOrSkip it = false := by
  unfold isCopyOrSkip
  rw [h]
  rfl

theorem isCopyOrSkip_false_of_ignored (it : Item)
    (h : it.strategy = Strategy.ignored) : isCopyOrSkip it = false := by
  unfold isCopyOrSkip
  rw [h]
  rfl

theorem get_items_plan_eq (fs : FS) (job : Job) (plan : List Item)
    (hplan : get_items fs job = Except.ok plan) :
    plan = ((((fs.createDirAll job.target).walk job.target).filter
        (fun p => p ≠ job.target))).foldl phase2Step
      (((fs.createDirAll job.target).walk job.source).map
        (planEntry (fs.createDirAll job.target)
          (job.model.getD BackupModel.full) job.ignorePaths
          job.target (pparent job.source))) := by
  unfold get_items at hplan
  by_cases hA : (!fs.pathExists job.source) = true
  · rw [if_pos hA] at hplan
    cases hplan
  · rw [if_neg hA] at hplan
    by_cases hB : (!fs.isDirAt job.source) = true
    · rw [if_pos hB] at hplan
      cases hplan
    · rw [if_neg hB, phase1_eq] at hplan
      exact (Except.ok.inj hplan).symm

/-- C5 (corrected).  The source-scan phase of the planner produces a
per-path decision for every walked entry under the source — regular files
and directories alike, including the source directory itself, not only
regular files — and the `Copy`/`Skip` decisions surviving in the final
plan are exactly those of the non-ignored walked entries, each with
destination `target ++ (entry path relative to the source's parent)`. -/
theorem c5_source_scan_decisions (fs : FS) (job : Job) (plan : List Item)
    (hplan : get_items fs job = Except.ok plan) :
    plan.filter isCopyOrSkip
      = (((fs.createDirAll job.target).walk job.source).map
          (planEntry (fs.createDirAll job.target)
            (job.model.getD BackupModel.full) job.ignorePaths
            job.target (pparent job.source))).filter isCopyOrSkip
    ∧ ∀ it ∈ plan, isCopyOrSkip it = true →
        it.src ∈ (fs.createDirAll job.target).walk job.source
        ∧ it.dest = pjoin job.target (it.src.drop (pparent job.source).length) := by
  have heq := get_items_plan_eq fs job plan hplan
  have hfilter : plan.filter isCopyOrSkip
      = (((fs.createDirAll job.target).walk job.source).map
          (planEntry (fs.createDirAll job.target)
            (job.model.getD BackupModel.full) job.ignorePaths
            job.target (pparent job.source))).filter isCopyOrSkip := by
    rw [heq]
    exact foldl_phase2_filter _ _ _ isCopyOrSkip_false_of_delete
      isCopyOrSkip_false_of_ignored
  refine ⟨hfilter, fun it hit hcs => ?_⟩
  have hmemf : it ∈ plan.filter isCopyOrSkip := List.mem_filter.mpr ⟨hit, hcs⟩
  rw [hfilter] at hmemf
  have hmem2 := List.mem_filter.mp hmemf
  rcases List.mem_map.mp hmem2.1 with ⟨p, hpmem, hpe⟩
  have hsrc : it.src = p := by rw [← hpe, planEntry_src]
  refine ⟨by rw [hsrc]; exact hpmem, ?_⟩
  rw [← hpe, planEntry_dest, planEntry_src]

/-- Witness for C5: the concrete plan of a mirror job with an ignore
pattern satisfies both conclusions. -/
theorem c5_source_scan_decisions_witness :
    ([Item.mk ["s"] ["d", "s"] Strategy.copy,
        Item.mk ["s", "tmp"] ["d", "s", "tmp"] Strategy.ignored,
        Item.mk ["s", "tmp", "x"] ["d", "s", "tmp", "x"] Strategy.ignored,
        Item.mk ["s", "f"] ["d", "s", "f"] Strategy.copy].filter isCopyOrSkip
      = ((((FS.mk [(["s"], ⟨true, 0, 5, []⟩), (["s", "tmp"], ⟨true, 0, 5, []⟩),
          (["s", "tmp", "x"], ⟨false, 1, 5, [9]⟩), (["s", "f"], ⟨false, 1, 5, [8]⟩)]).createDirAll
            ["d"]).walk ["s"]).map
          (planEntry ((FS.mk [(["s"], ⟨true, 0, 5, []⟩), (["s", "tmp"], ⟨true, 0, 5, []⟩),
            (["s", "tmp", "x"], ⟨false, 1, 5, [9]⟩), (["s", "f"], ⟨false, 1, 5, [8]⟩)]).createDirAll
              ["d"])
            ((Job.mk 1 ["s"] ["d"] none none (some [["tmp"]])
              (some BackupModel.mirror)).model.getD BackupModel.full)
            (Job.mk 1 ["s"] ["d"] none none (some [["tmp"]])
              (some BackupModel.mirror)).ignorePaths
            ["d"] (pparent ["s"]))).filter isCopyOrSkip)
    ∧ ∀ it ∈ [Item.mk ["s"] ["d", "s"] Strategy.copy,
        Item.mk ["s", "tmp"] ["d", "s", "tmp"] Strategy.ignored,
        Item.mk ["s", "tmp", "x"] ["d", "s", "tmp", "x"] Strategy.ignored,
        Item.mk ["s", "f"] ["d", "s", "f"] Strategy.copy], isCopyOrSkip it = true →
          it.src ∈ ((FS.mk [(["s"], ⟨true, 0, 5, []⟩), (["s", "tmp"], ⟨true, 0, 5, []⟩),
            (["s", "tmp", "x"], ⟨false, 1, 5, [9]⟩),
            (["s", "f"], ⟨false, 1, 5, [8]⟩)]).createDirAll ["d"]).walk ["s"]
          ∧ it.dest = pjoin ["d"] (it.src.drop (pparent ["s"]).length) :=
  c5_source_scan_decisions
    ⟨[(["s"], ⟨true, 0, 5, []⟩), (["s", "tmp"], ⟨true, 0, 5, []⟩),
      (["s", "tmp", "x"], ⟨false, 1, 5, [9]⟩), (["s", "f"], ⟨false, 1, 5, [8]⟩)]⟩
    ⟨1, ["s"], ["d"], none, none, some [["tmp"]], some BackupModel.mirror⟩
    [Item.mk ["s"] ["d", "s"] Strategy.copy,
      Item.mk ["s", "tmp"] ["d", "s", "tmp"] Strategy.ignored,
      Item.mk ["s", "tmp", "x"] ["d", "s", "tmp", "x"] Strategy.ignored,
      Item.mk ["s", "f"] ["d", "s", "f"] Strategy.copy] (by rfl)

/-- Counterexample for C5: the source scan does not restrict itself to
regular files — for a source directory containing a subdirectory, the plan
contains a `Copy` decision whose source is that subdirectory (and one for
the source directory itself). -/
theorem c5_regular_files_only_cex :
    get_items ⟨[(["s"], ⟨true, 0, 5, []⟩), (["s", "sub"], ⟨true, 0, 5, []⟩)]⟩
        ⟨1, ["s"], ["d"], none, none, none, some BackupModel.full⟩
      = Except.ok [Item.mk ["s"] ["d", "s"] Strategy.copy,
          Item.mk ["s", "sub"] ["d", "s", "sub"] Strategy.copy]
    ∧ FS.isDirAt ⟨[(["s"], ⟨true, 0, 5, []⟩), (["s", "sub"], ⟨true, 0, 5, []⟩)]⟩
        ["s", "sub"] = true
    ∧ FS.isFile ⟨[(["s"], ⟨true, 0, 5, []⟩), (["s", "sub"], ⟨true, 0, 5, []⟩)]⟩
        ["s", "sub"] = false := by
  exact ⟨by rfl, by decide, by decide⟩

/-- C8 (confirmed).  No path under any ignore root `source ++ pattern`
ever appears as the `src` of a `Copy` item in the plan produced by
`get_items`. -/
theorem c8_ignored_never_copied (fs : FS) (job : Job) (plan : List Item)
    (hplan : get_items fs job = Except.ok plan) (it : Item)
    (hit : it ∈ plan) (hcopy : it.strategy = Strategy.copy) :
    ∀ q ∈ job.ignorePaths, pstarts it.src q = false := by
  have heq := get_items_plan_eq fs job plan hplan
  have hcs : isCopyOrSkip it = true := by
    unfold isCopyOrSkip
    rw [hcopy]
    rfl
  have hmemf : it ∈ plan.filter isCopyOrSkip := List.mem_filter.mpr ⟨hit, hcs⟩
  rw [heq, foldl_phase2_filter _ _ _ isCopyOrSkip_false_of_delete
    isCopyOrSkip_false_of_ignored] at hmemf
  have hmem2 := List.mem_filter.mp hmemf
  rcases List.mem_map.mp hmem2.1 with ⟨p, hpmem, hpe⟩
  intro q hq
  have hsrc : it.src = p := by rw [← hpe, planEntry_src]
  rw [hsrc]
  unfold planEntry at hpe
  by_cases hig : (job.ignorePaths.any (fun r => pstarts p r)) = true
  · rw [if_pos hig] at hpe
    rw [← hpe] at hcopy
    cases hcopy
  · rw [List.any_eq_true] at hig
    push_neg at hig
    have h2 := hig q hq
    simp only [Bool.not_eq_true] at h2
    exact h2

/-- Witness for C8: in the concrete ignore-pattern plan, the `Copy` item
for `s/f` is not under the ignore root `s/tmp`. -/
theorem c8_ignored_never_copied_witness :
    pstarts (Item.mk ["s", "f"] ["d", "s", "f"] Strategy.copy).src
      ["s", "tmp"] = false :=
  c8_ignored_never_copied
    ⟨[(["s"], ⟨true, 0, 5, []⟩), (["s", "tmp"], ⟨true, 0, 5, []⟩),
      (["s", "tmp", "x"], ⟨false, 1, 5, [9]⟩), (["s", "f"], ⟨false, 1, 5, [8]⟩)]⟩
    ⟨1, ["s"], ["d"], none, none, some [["tmp"]], some BackupModel.mirror⟩
    [Item.mk ["s"] ["d", "s"] Strategy.copy,
      Item.mk ["s", "tmp"] ["d", "s", "tmp"] Strategy.ignored,
      Item.mk ["s", "tmp", "x"] ["d", "s", "tmp", "x"] Strategy.ignored,
      Item.mk ["s", "f"] ["d", "s", "f"] Strategy.copy] (by rfl)
    (Item.mk ["s", "f"] ["d", "s", "f"] Strategy.copy) (by decide) (by decide)
    ["s", "tmp"] (by decide)

theorem mem_prefixesOf (q t : Path) : q ∈ prefixesOf t ↔ q <+: t := by
  unfold prefixesOf
  constructor
  · intro h
    rcases List.mem_map.mp h with ⟨i, _, rfl⟩
    exact List.take_prefix i t
  · intro h
    refine List.mem_map.mpr ⟨q.length, ?_, ?_⟩
    · rw [List.mem_range]
      exact Nat.lt_succ_of_le h.length_le
    · exact (List.prefix_iff_eq_take.mp h).symm

theorem find_none_of_pathExists_false (fs : FS) (q : Path)
    (h : fs.pathExists q = false) :
    fs.entries.find? (fun e => e.1 == q) = none := by
  unfold FS.pathExists FS.lookup at h
  cases hfind : fs.entries.find? (fun e => e.1 == q) with
  | none => rfl
  | some x =>
    rw [hfind] at h
    simp at h

theorem upsert_lookup_self (fs : FS) (p : Path) (n : FNode) :
    (fs.upsert p n).lookup p = some n := by
  unfold FS.upsert FS.lookup FS.removeEntry
  rw [List.find?_append]
  have h1 : (fs.entries.filter (fun e => e.1 ≠ p)).find? (fun e => e.1 == p)
      = none := by
    rw [List.find?_eq_none]
    intro a ha
    have h2 := (List.mem_filter.mp ha).2
    simp only [decide_eq_true_eq] at h2
    simpa using h2
  rw [h1]
  simp [List.find?_cons]

theorem upsert_lookup_other (fs : FS) (p q : Path) (n : FNode) (h : q ≠ p) :
    (fs.upsert p n).lookup q = fs.lookup q := by
  unfold FS.upsert FS.lookup FS.removeEntry
  rw [List.find?_append]
  rw [show (fs.entries.filter (fun e => e.1 ≠ p)).find? (fun e => e.1 == q)
      = fs.entries.find? (fun e => e.1 == q) from find_filter_ne fs.entries p q h]
  have h2 : ([(p, n)].find? (fun e => e.1 == q)) = none := by
    rw [List.find?_eq_none]
    intro a ha
    rw [List.mem_singleton.mp ha]
    simp
    exact fun hc => h hc.symm
  rw [h2, Option.or_none]

theorem createDirAll_lookup_of_exists (fs : FS) (t q : Path)
    (h : fs.pathExists q = true) :
    (fs.createDirAll t).lookup q = fs.lookup q := by
  unfold FS.createDirAll FS.lookup
  rw [List.find?_append]
  unfold FS.pathExists FS.lookup at h
  cases hfind : fs.entries.find? (fun e => e.1 == q) with
  | none => rw [hfind] at h; simp at h
  | some x => rfl

theorem find_createList (l : List Path) (q : Path) (hq : q ∈ l) :
    ∃ r, (l.map (fun r => (r, (⟨true, 0, 0, []⟩ : FNode)))).find?
        (fun e => e.1 == q) = some (r, ⟨true, 0, 0, []⟩) ∧ r = q := by
  rw [List.find?_map]
  have hsome : (l.find? (fun r => r == q)).isSome = true := by
    rw [List.find?_isSome]
    exact ⟨q, hq, by simp⟩
  rcases Option.isSome_iff_exists.mp hsome with ⟨r, hr⟩
  have hrq : r = q := by simpa using List.find?_some hr
  refine ⟨r, ?_, hrq⟩
  have hcomp : ((fun (e : Path × FNode) => e.1 == q)
      ∘ (fun r => (r, (⟨true, 0, 0, []⟩ : FNode)))) = fun r => r == q := rfl
  rw [hcomp, hr]
  rfl

theorem createDirAll_lookup_missing_mem (fs : FS) (t q : Path)
    (h : fs.pathExists q = false) (hq : q ∈ prefixesOf t) :
    (fs.createDirAll t).lookup q = some ⟨true, 0, 0, []⟩ := by
  unfold FS.createDirAll FS.lookup
  rw [List.find?_append, find_none_of_pathExists_false fs q h, Option.none_or]
  have hmem : q ∈ (prefixesOf t).filter (fun r => !(fs.pathExists r)) :=
    List.mem_filter.mpr ⟨hq, by simp [h]⟩
  rcases find_createList _ q hmem with ⟨r, hfind, rfl⟩
  rw [hfind]
  rfl

theorem createDirAll_lookup_missing_notmem (fs : FS) (t q : Path)
    (h : fs.pathExists q = false) (hq : ¬ q ∈ prefixesOf t) :
    (fs.createDirAll t).lookup q = none := by
  unfold FS.createDirAll FS.lookup
  rw [List.find?_append, find_none_of_pathExists_false fs q h, Option.none_or]
  have hnone : (((prefixesOf t).filter (fun r => !(fs.pathExists r))).map
      (fun r => (r, (⟨true, 0, 0, []⟩ : FNode)))).find? (fun e => e.1 == q)
      = none := by
    rw [List.find?_eq_none]
    intro a ha
    rcases List.mem_map.mp ha with ⟨r, hr, rfl⟩
    have hrmem := (List.mem_filter.mp hr).1
    simp only [Bool.not_eq_true, beq_eq_false_iff_ne, ne_eq]
    intro hc
    have hrq : r = q := hc
    exact hq (hrq ▸ hrmem)
  rw [hnone]
  rfl

theorem createDirAll_eq_self (fs : FS) (t : Path)
    (h : ∀ r ∈ prefixesOf t, fs.pathExists r = true) :
    fs.createDirAll t = fs := by
  unfold FS.createDirAll
  have hnil : (prefixesOf t).filter (fun r => !(fs.pathExists r)) = [] := by
    rw [List.filter_eq_nil_iff]
    intro r hr
    simp [h r hr]
  rw [hnil]
  simp

/-! ## Idempotence of mirror planning (C7)

The development below characterises a first mirror run (plan + apply) of a
directory job into an initially empty destination, and shows the second
run plans only `NotUpdate` (spec `Skip`) and `Ignore` items and leaves the
filesystem unchanged.  Because `execute_item` delegates copying to the
`file_util::copy` helper that is not under `src/`, the copy semantics here
is the spec-modelled `copyPath` above. -/

/-- The node written by a copy: same kind, size and bytes as the source,
modification time the wall-clock time of the write. -/
def copyNode (n : FNode) (now : Nat) : FNode :=
  ⟨n.isDir, n.size, now, n.content⟩

/-- The destination path of a walked source entry in a directory job. -/
def destOf (S T p : Path) : Path :=
  pjoin T (p.drop (pparent S).length)

/-- Whether a path is under one of the ignore roots. -/
def ignoredBy (ignoreP : List Path) (p : Path) : Bool :=
  ignoreP.any (fun q => pstarts p q)

theorem pstarts_iff (p q : Path) : pstarts p q = true ↔ q <+: p := by
  unfold pstarts
  exact List.isPrefixOf_iff_prefix

theorem prefix_of_prefix_length_le (q r p : Path) (h1 : q <+: p) (h2 : r <+: p)
    (hl : q.length ≤ r.length) : q <+: r := by
  rcases List.prefix_or_prefix_of_prefix h1 h2 with h | h
  · exact h
  · rw [h.eq_of_length_le hl]

theorem take_pparent_of_pre (S p : Path) (h : S <+: p) :
    p.take (pparent S).length = pparent S :=
  (List.prefix_iff_eq_take.mp ((List.dropLast_prefix S).trans h)).symm

theorem length_drop_pparent (S p : Path) (hS : S ≠ []) (h : S <+: p) :
    1 ≤ (p.drop (pparent S).length).length := by
  rw [List.length_drop]
  have h1 := h.length_le
  have h2 : 1 ≤ S.length := by
    cases S with
    | nil => exact absurd rfl hS
    | cons a l => simp
  unfold pparent
  rw [List.length_dropLast]
  omega

theorem destOf_ne_T (S T p : Path) (hS : S ≠ []) (h : S <+: p) :
    destOf S T p ≠ T := by
  unfold destOf pjoin
  intro hc
  have hl := congrArg List.length hc
  rw [List.length_append] at hl
  have h1 := length_drop_pparent S p hS h
  omega

theorem T_prefix_destOf (S T p : Path) : T <+: destOf S T p :=
  List.prefix_append T _

theorem destOf_inj (S T p1 p2 : Path) (h1 : S <+: p1) (h2 : S <+: p2)
    (heq : destOf S T p1 = destOf S T p2) : p1 = p2 := by
  unfold destOf pjoin at heq
  have hrel := List.append_cancel_left heq
  have e1 : p1 = p1.take (pparent S).length ++ p1.drop (pparent S).length :=
    (List.take_append_drop _ p1).symm
  have e2 : p2 = p2.take (pparent S).length ++ p2.drop (pparent S).length :=
    (List.take_append_drop _ p2).symm
  rw [e1, e2, take_pparent_of_pre S p1 h1, take_pparent_of_pre S p2 h2, hrel]

theorem ignoredBy_of_ancestor (ignoreP : List Path) (p1 p2 : Path)
    (hpre : p1 <+: p2) (h : ignoredBy ignoreP p1 = true) :
    ignoredBy ignoreP p2 = true := by
  unfold ignoredBy at h ⊢
  rw [List.any_eq_true] at h ⊢
  rcases h with ⟨q, hq, hpq⟩
  refine ⟨q, hq, ?_⟩
  rw [pstarts_iff] at hpq ⊢
  exact hpq.trans hpre

theorem lookup_eq_none_of_pathExists_false (fs : FS) (q : Path)
    (h : fs.pathExists q = false) : fs.lookup q = none := by
  unfold FS.pathExists at h
  cases hl : fs.lookup q with
  | none => rfl
  | some n => rw [hl] at h; simp at h

theorem pathExists_true_of_lookup (fs : FS) (q : Path) (n : FNode)
    (h : fs.lookup q = some n) : fs.pathExists q = true := by
  unfold FS.pathExists
  rw [h]
  rfl

theorem exists_entry_of_pathExists (fs : FS) (q : Path)
    (h : fs.pathExists q = true) : ∃ n, (q, n) ∈ fs.entries := by
  unfold FS.pathExists FS.lookup at h
  cases hfind : fs.entries.find? (fun e => e.1 == q) with
  | none => rw [hfind] at h; simp at h
  | some x =>
    have hx1 : x ∈ fs.entries := List.mem_of_find?_eq_some hfind
    have hx2 := List.find?_some hfind
    have hx3 : x.1 = q := by simpa using hx2
    exact ⟨x.2, by rw [← hx3]; exact hx1⟩

theorem pathExists_of_mem_entries (fs : FS) (q : Path) (n : FNode)
    (h : (q, n) ∈ fs.entries) : fs.pathExists q = true := by
  unfold FS.pathExists FS.lookup
  cases hfind : fs.entries.find? (fun e => e.1 == q) with
  | none =>
    rw [List.find?_eq_none] at hfind
    exact absurd (by simp : ((q, n).1 == q) = true) (by simpa using hfind (q, n) h)
  | some x => rfl

theorem createDirAll_pathExists_pre (fs : FS) (t r : Path)
    (h : r <+: t) : (fs.createDirAll t).pathExists r = true := by
  by_cases he : fs.pathExists r = true
  · unfold FS.pathExists
    rw [createDirAll_lookup_of_exists fs t r he]
    exact he
  · rw [Bool.not_eq_true] at he
    unfold FS.pathExists
    rw [createDirAll_lookup_missing_mem fs t r he ((mem_prefixesOf r t).mpr h)]
    rfl

theorem pathExists_false_under_T (fs0 : FS) (T q : Path)
    (hT : ∀ e ∈ fs0.entries, T <+: e.1 → e.1 = T) (hq : T <+: q) (hne : q ≠ T) :
    fs0.pathExists q = false := by
  cases h : fs0.pathExists q with
  | false => rfl
  | true =>
    rcases exists_entry_of_pathExists fs0 q h with ⟨n, hn⟩
    exact absurd (hT (q, n) hn hq) hne

theorem mkfs_lookup_under_T_none (fs0 : FS) (T q : Path)
    (hT : ∀ e ∈ fs0.entries, T <+: e.1 → e.1 = T) (hq : T <+: q) (hne : q ≠ T) :
    (fs0.createDirAll T).lookup q = none := by
  apply createDirAll_lookup_missing_notmem fs0 T q
    (pathExists_false_under_T fs0 T q hT hq hne)
  intro hmem
  exact hne (((mem_prefixesOf q T).mp hmem).eq_of_length_le hq.length_le)

theorem mkfs_lookup_S_subtree (fs0 : FS) (S T p : Path)
    (hST : ¬ S <+: T) (hSp : S <+: p) :
    (fs0.createDirAll T).lookup p = fs0.lookup p := by
  by_cases he : fs0.pathExists p = true
  · exact createDirAll_lookup_of_exists fs0 T p he
  · rw [Bool.not_eq_true] at he
    rw [lookup_eq_none_of_pathExists_false fs0 p he]
    apply createDirAll_lookup_missing_notmem fs0 T p he
    intro hmem
    exact hST (hSp.trans ((mem_prefixesOf p T).mp hmem))

/-- The preconditions of the first mirror run of a directory job: the
source is an existing directory with a nonempty path, the destination
subtree is initially empty, source and target are prefix-incomparable,
no source mtime is in the future (beyond the tolerance) relative to the
run, entry paths are unique, and every proper ancestor of a source entry
below the source root is itself an entry (a well-formed tree). -/
structure Mirror1Ctx (fs0 : FS) (S T : Path) (now : Nat) : Prop where
  hSdir : fs0.isDirAt S = true
  hSne : S ≠ []
  hTempty : ∀ e ∈ fs0.entries, T <+: e.1 → e.1 = T
  hTS : ¬ T <+: S
  hST : ¬ S <+: T
  hmtime : ∀ e ∈ fs0.entries, S <+: e.1 → e.2.mtime ≤ now + TOLERANCE
  hnodup : (fs0.entries.map Prod.fst).Nodup
  hclosed : ∀ e ∈ fs0.entries, ∀ j, j < e.1.length → S <+: e.1.take j →
    fs0.pathExists (e.1.take j) = true

/-- The item the first run plans for a walked source entry: `Ignore` under
an ignore root, `Copy` otherwise (the destination subtree being empty,
`Mirror` never finds an up-to-date destination on the first run). -/
def firstRunItem (S T : Path) (ignoreP : List Path) (p : Path) : Item :=
  if ignoredBy ignoreP p then ⟨p, destOf S T p, Strategy.ignored⟩
  else ⟨p, destOf S T p, Strategy.copy⟩

theorem destWalk_nil (fs0 : FS) (T : Path)
    (hTempty : ∀ e ∈ fs0.entries, T <+: e.1 → e.1 = T) :
    ((fs0.createDirAll T).walk T).filter (fun p => p ≠ T) = [] := by
  rw [List.filter_eq_nil_iff]
  intro q hq
  simp only [decide_eq_true_eq, Decidable.not_not]
  have hfacts := walk_mem_facts _ T q hq
  have hpre : T <+: q := List.isPrefixOf_iff_prefix.mp hfacts.1
  rcases Option.isSome_iff_exists.mp hfacts.2 with ⟨n, hn⟩
  rcases exists_entry_of_pathExists _ q (pathExists_true_of_lookup _ q n hn) with ⟨m, hm⟩
  unfold FS.createDirAll at hm
  simp only at hm
  rcases List.mem_append.mp hm with hfs0 | hcreated
  · exact hTempty (q, m) hfs0 hpre
  · rcases List.mem_map.mp hcreated with ⟨r, hr, hre⟩
    have hrq : r = q := congrArg Prod.fst hre
    have hrT : r <+: T := (mem_prefixesOf r T).mp (List.mem_filter.mp hr).1
    rw [hrq] at hrT
    exact hrT.eq_of_length_le hpre.length_le

theorem walk_mem_S_pre (fs : FS) (S p : Path) (hp : p ∈ fs.walk S) :
    S <+: p :=
  List.isPrefixOf_iff_prefix.mp (walk_mem_facts fs S p hp).1

theorem plan1_shape (fs0 : FS) (job : Job) (now : Nat)
    (hc : Mirror1Ctx fs0 job.source job.target now) :
    get_items fs0 job = Except.ok
      (((fs0.createDirAll job.target).walk job.source).map
        (firstRunItem job.source job.target job.ignorePaths)) := by
  unfold get_items
  have hex : fs0.pathExists job.source = true := pathExists_of_isDirAt _ _ hc.hSdir
  simp only [hex, hc.hSdir, Bool.not_true, Bool.false_eq_true, if_false]
  rw [phase1_eq]
  simp only [Except.bind]
  rw [destWalk_nil fs0 job.target hc.hTempty, List.foldl_nil]
  congr 1
  apply List.map_congr_left
  intro p hp
  have hSp : job.source <+: p := walk_mem_S_pre _ _ p hp
  unfold planEntry firstRunItem
  cases hig : ignoredBy job.ignorePaths p with
  | true =>
    rw [show (job.ignorePaths.any (fun q => pstarts p q)) = true from hig, if_pos rfl]
    rfl
  | false =>
    rw [show (job.ignorePaths.any (fun q => pstarts p q)) = false from hig]
    simp only [Bool.false_eq_true, if_false]
    have hnu : needsUpdateSpec (fs0.createDirAll job.target) p
        (pjoin job.target (p.drop (pparent job.source).length)) = true := by
      unfold needsUpdateSpec FS.pathExists
      rw [show (fs0.createDirAll job.target).lookup
          (pjoin job.target (p.drop (pparent job.source).length)) = none from
        mkfs_lookup_under_T_none fs0 job.target _ hc.hTempty
          (T_prefix_destOf job.source job.target p)
          (destOf_ne_T job.source job.target p hc.hSne hSp)]
      rfl
    cases hm : job.model.getD BackupModel.full with
    | full => rfl
    | mirror =>
      rw [hnu]
      rfl

theorem copyInto_ok (now : Nat) (fsA : FS) (src dest : Path) (n : FNode)
    (h : fsA.lookup src = some n) :
    copyInto now fsA src dest = Except.ok (fsA.upsert dest (copyNode n now)) := by
  unfold copyInto
  simp only [h]
  cases hd : n.isDir with
  | false => simp [copyNode, hd]
  | true => simp [copyNode, hd]

theorem not_T_prefix_of_S_subtree (S T p : Path) (hTS : ¬ T <+: S)
    (hST : ¬ S <+: T) (hSp : S <+: p) : ¬ T <+: p := by
  intro hTp
  rcases List.prefix_or_prefix_of_prefix hSp hTp with h | h
  · exact hST h
  · exact hTS h

theorem not_S_prefix_of_T_subtree (S T q : Path) (hTS : ¬ T <+: S)
    (hST : ¬ S <+: T) (hTq : T <+: q) : ¬ S <+: q := by
  intro hSq
  rcases List.prefix_or_prefix_of_prefix hSq hTq with h | h
  · exact hST h
  · exact hTS h

theorem mem_entries_of_lookup (fs : FS) (q : Path) (n : FNode)
    (h : fs.lookup q = some n) : (q, n) ∈ fs.entries := by
  unfold FS.lookup at h
  cases hfind : fs.entries.find? (fun e => e.1 == q) with
  | none => rw [hfind] at h; cases h
  | some x =>
    rw [hfind] at h
    have hx1 : x ∈ fs.entries := List.mem_of_find?_eq_some hfind
    have hx2 := List.find?_some hfind
    have hx3 : x.1 = q := by simpa using hx2
    have hx4 : x.2 = n := Option.some.inj h
    have hx : x = (q, n) := by
      cases x
      simp only at hx3 hx4
      rw [hx3, hx4]
    rw [← hx]
    exact hx1

theorem filter_entries_remove (l : List (Path × FNode)) (x : Path)
    (P : Path × FNode → Bool) (hx : ∀ e : Path × FNode, e.1 = x → P e = false) :
    (l.filter (fun e => e.1 ≠ x)).filter P = l.filter P := by
  induction l with
  | nil => rfl
  | cons e l ih =>
    by_cases hex : e.1 = x
    · have h1 : decide (e.1 ≠ x) = false := by simp [hex]
      rw [List.filter_cons, h1]
      simp only [Bool.false_eq_true, if_false]
      rw [List.filter_cons, hx e hex]
      simp only [Bool.false_eq_true, if_false]
      exact ih
    · have h1 : decide (e.1 ≠ x) = true := by simp [hex]
      rw [List.filter_cons, h1]
      simp only [if_true]
      rw [List.filter_cons, List.filter_cons, ih]

theorem filter_append_right_nil {α : Type} (l1 l2 : List α) (P : α → Bool)
    (h : ∀ x ∈ l2, P x = false) : (l1 ++ l2).filter P = l1.filter P := by
  rw [List.filter_append]
  have : l2.filter P = [] := by
    rw [List.filter_eq_nil_iff]
    intro a ha
    simp [h a ha]
  rw [this, List.append_nil]

theorem upsert_filter_entries (fs : FS) (x : Path) (n : FNode)
    (P : Path × FNode → Bool) (hx : ∀ e : Path × FNode, e.1 = x → P e = false) :
    (fs.upsert x n).entries.filter P = fs.entries.filter P := by
  unfold FS.upsert FS.removeEntry
  rw [filter_append_right_nil _ [(x, n)] P
    (fun e he => hx e (congrArg Prod.fst (List.mem_singleton.mp he)))]
  exact filter_entries_remove fs.entries x P hx

theorem createDirAll_filter_entries (fs : FS) (t : Path)
    (P : Path × FNode → Bool)
    (h : ∀ r ∈ prefixesOf t, ∀ n : FNode, P (r, n) = false) :
    (fs.createDirAll t).entries.filter P = fs.entries.filter P := by
  unfold FS.createDirAll
  apply filter_append_right_nil
  intro e he
  rcases List.mem_map.mp he with ⟨r, hr, rfl⟩
  exact h r (List.mem_filter.mp hr).1 _

/-- The invariant of the first run's execution fold: outside the strict
destination subtree nothing changes (and the source-subtree entry list is
untouched); inside it, each processed non-ignored entry's destination
holds a copy of the source node timestamped `now`, and everything else is
either absent or a directory stub awaiting the destination of a
yet-unprocessed walked entry. -/
def ApplyInv (fs0m : FS) (S T : Path) (ignoreP : List Path) (now : Nat)
    (W done : List Path) (fs : FS) : Prop :=
  (∀ q, (¬ T <+: q ∨ q = T) → fs.lookup q = fs0m.lookup q)
  ∧ (fs.entries.filter (fun e => S.isPrefixOf e.1)
      = fs0m.entries.filter (fun e => S.isPrefixOf e.1))
  ∧ (∀ q, T <+: q → q ≠ T →
      ((∃ p n, p ∈ done ∧ ignoredBy ignoreP p = false ∧ q = destOf S T p
          ∧ fs0m.lookup p = some n ∧ fs.lookup q = some (copyNode n now))
       ∨ ((∀ p ∈ done, ignoredBy ignoreP p = false → q ≠ destOf S T p)
          ∧ (fs.lookup q = none
             ∨ (fs.lookup q = some ⟨true, 0, 0, []⟩
                ∧ ∃ p, p ∈ W ∧ ignoredBy ignoreP p = false
                    ∧ q = destOf S T p)))))

theorem ApplyInv_base (fs0 : FS) (S T : Path) (ignoreP : List Path)
    (now : Nat) (W : List Path)
    (hTempty : ∀ e ∈ fs0.entries, T <+: e.1 → e.1 = T) :
    ApplyInv (fs0.createDirAll T) S T ignoreP now W [] (fs0.createDirAll T) := by
  refine ⟨fun q _ => rfl, rfl, fun q hq hne => Or.inr ⟨by simp, Or.inl ?_⟩⟩
  exact mkfs_lookup_under_T_none fs0 T q hTempty hq hne

theorem mem_walk_of_entry (fs : FS) (root q : Path) (n : FNode)
    (h : (q, n) ∈ fs.entries) (hpre : root <+: q) : q ∈ fs.walk root := by
  unfold FS.walk
  refine List.mem_map.mpr ⟨(q, n), List.mem_filter.mpr ⟨h, ?_⟩, rfl⟩
  simpa using List.isPrefixOf_iff_prefix.mpr hpre

theorem mem_entries_createDirAll (fs : FS) (t q : Path) (n : FNode)
    (h : (q, n) ∈ fs.entries) : (q, n) ∈ (fs.createDirAll t).entries := by
  unfold FS.createDirAll
  exact List.mem_append_left _ h

theorem walk_mem_fs0_entry (fs0 : FS) (S T p : Path) (hST : ¬ S <+: T)
    (hp : p ∈ (fs0.createDirAll T).walk S) :
    ∃ n, (p, n) ∈ fs0.entries ∧ fs0.lookup p = some n := by
  have hf := walk_mem_facts _ S p hp
  rcases Option.isSome_iff_exists.mp hf.2 with ⟨n, hn⟩
  rw [mkfs_lookup_S_subtree fs0 S T p hST (List.isPrefixOf_iff_prefix.mp hf.1)] at hn
  exact ⟨n, mem_entries_of_lookup fs0 p n hn, hn⟩

theorem stub_is_dest (fs0 : FS) (S T : Path) (now : Nat)
    (hc : Mirror1Ctx fs0 S T now) (ignoreP : List Path) (p q : Path)
    (hp : p ∈ (fs0.createDirAll T).walk S)
    (hig : ignoredBy ignoreP p = false)
    (hq : q <+: pparent (destOf S T p)) (hTq : T <+: q) (hqT : q ≠ T) :
    ∃ p2, p2 ∈ (fs0.createDirAll T).walk S ∧ ignoredBy ignoreP p2 = false
      ∧ q = destOf S T p2 := by
  have f1 : S <+: p := walk_mem_S_pre _ S p hp
  have hrellen : 1 ≤ (p.drop (pparent S).length).length :=
    length_drop_pparent S p hc.hSne f1
  have hrelne : p.drop (pparent S).length ≠ [] := by
    intro hcon
    rw [hcon] at hrellen
    simp at hrellen
  have hPeq : pparent (destOf S T p)
      = T ++ (p.drop (pparent S).length).dropLast := by
    unfold destOf pjoin pparent
    exact List.dropLast_append_of_ne_nil T hrelne
  have hqeq : q = T ++ q.drop T.length := by
    conv_lhs => rw [← List.take_append_drop T.length q]
    rw [← List.prefix_iff_eq_take.mp hTq]
  have hrel1 : q.drop T.length <+: (p.drop (pparent S).length).dropLast := by
    rw [hPeq, hqeq] at hq
    exact (List.prefix_append_right_inj T).mp hq
  have hrel2 : q.drop T.length <+: p.drop (pparent S).length :=
    hrel1.trans (List.dropLast_prefix _)
  have hrelq : 1 ≤ (q.drop T.length).length := by
    by_contra hcon
    push_neg at hcon
    have hnil : q.drop T.length = [] := by
      cases hd : q.drop T.length with
      | nil => rfl
      | cons a l => rw [hd] at hcon; simp at hcon
    rw [hnil, List.append_nil] at hqeq
    exact hqT hqeq
  have hklen : (pparent S).length ≤ p.length :=
    ((List.dropLast_prefix S).trans f1).length_le
  have hjlt : (pparent S).length + (q.drop T.length).length < p.length := by
    have h1 := hrel1.length_le
    rw [List.length_dropLast] at h1
    have hlp : (p.drop (pparent S).length).length
        = p.length - (pparent S).length := List.length_drop _ _
    omega
  rcases walk_mem_fs0_entry fs0 S T p hc.hST hp with ⟨n, hpe, _⟩
  have hSp2 : S <+: p.take ((pparent S).length + (q.drop T.length).length) := by
    have hS1 : S = p.take S.length := List.prefix_iff_eq_take.mp f1
    have hle : S.length ≤ (pparent S).length + (q.drop T.length).length := by
      unfold pparent
      rw [List.length_dropLast]
      have hSlen : 1 ≤ S.length := by
        cases hS : S with
        | nil => exact absurd hS hc.hSne
        | cons a l => simp
      omega
    conv_lhs => rw [hS1]
    exact List.take_prefix_take_left p hle
  have hex2 := hc.hclosed (p, n) hpe
    ((pparent S).length + (q.drop T.length).length) hjlt hSp2
  rcases exists_entry_of_pathExists fs0 _ hex2 with ⟨m, hm⟩
  refine ⟨p.take ((pparent S).length + (q.drop T.length).length),
    mem_walk_of_entry _ S _ m (mem_entries_createDirAll fs0 T _ m hm) hSp2, ?_, ?_⟩
  · cases hig2 : ignoredBy ignoreP
        (p.take ((pparent S).length + (q.drop T.length).length)) with
    | false => rfl
    | true =>
      rw [ignoredBy_of_ancestor ignoreP _ p (List.take_prefix _ p) hig2] at hig
      cases hig
  · unfold destOf pjoin
    rw [List.drop_take]
    have hsub : (pparent S).length + (q.drop T.length).length - (pparent S).length
        = (q.drop T.length).length := by omega
    rw [hsub]
    rw [← List.prefix_iff_eq_take.mp hrel2]
    exact hqeq

theorem created_under_T (fs0 : FS) (_S T : Path) (fs : FS) (dest r : Path)
    (hA : ∀ q, (¬ T <+: q ∨ q = T) → fs.lookup q = (fs0.createDirAll T).lookup q)
    (hTd : T <+: dest)
    (hr : r <+: dest) (hmiss : fs.pathExists r = false) :
    T <+: r ∧ r ≠ T := by
  have hcomp := List.prefix_or_prefix_of_prefix hr hTd
  have habs : ∀ r2 : Path, r2 <+: T → fs.pathExists r2 = true := by
    intro r2 hr2
    have hdom : ¬ T <+: r2 ∨ r2 = T := by
      by_cases he : r2 = T
      · exact Or.inr he
      · exact Or.inl (fun hTr2 => he (hr2.eq_of_length_le hTr2.length_le))
    have hl := hA r2 hdom
    have hex : (fs0.createDirAll T).pathExists r2 = true :=
      createDirAll_pathExists_pre fs0 T r2 hr2
    unfold FS.pathExists at hex ⊢
    rw [hl]
    exact hex
  rcases hcomp with h | h
  · rw [habs r h] at hmiss
    cases hmiss
  · refine ⟨h, fun he => ?_⟩
    rw [habs r (he ▸ List.prefix_rfl)] at hmiss
    cases hmiss

theorem ApplyInv_mkdir (fs0 : FS) (S T : Path) (ignoreP : List Path)
    (now : Nat) (W done : List Path) (fs : FS) (p : Path)
    (hc : Mirror1Ctx fs0 S T now)
    (hinv : ApplyInv (fs0.createDirAll T) S T ignoreP now W done fs)
    (hp : p ∈ (fs0.createDirAll T).walk S) (hW : W = (fs0.createDirAll T).walk S)
    (hig : ignoredBy ignoreP p = false) :
    ApplyInv (fs0.createDirAll T) S T ignoreP now W done
      (fs.createDirAll (pparent (destOf S T p))) := by
  rcases hinv with ⟨hA, hWf, hC⟩
  have hTd : T <+: destOf S T p := T_prefix_destOf S T p
  have hPd : pparent (destOf S T p) <+: destOf S T p := List.dropLast_prefix _
  refine ⟨?_, ?_, ?_⟩
  · intro q hdom
    by_cases he : fs.pathExists q = true
    · rw [createDirAll_lookup_of_exists fs _ q he]
      exact hA q hdom
    · rw [Bool.not_eq_true] at he
      have hnot : ¬ q ∈ prefixesOf (pparent (destOf S T p)) := by
        intro hmem
        have hqd : q <+: destOf S T p :=
          ((mem_prefixesOf q _).mp hmem).trans hPd
        have hqt := created_under_T fs0 S T fs _ q hA hTd hqd he
        rcases hdom with hd | hd
        · exact hd hqt.1
        · exact hqt.2 hd
      rw [createDirAll_lookup_missing_notmem fs _ q he hnot,
        ← hA q hdom, lookup_eq_none_of_pathExists_false fs q he]
  · rw [createDirAll_filter_entries fs _ _ ?_]
    · exact hWf
    · intro r hr n
      have hrd : r <+: destOf S T p := ((mem_prefixesOf r _).mp hr).trans hPd
      have hnS : ¬ S <+: r := by
        intro hSr
        rcases List.prefix_or_prefix_of_prefix hrd hTd with h | h
        · exact hc.hST (hSr.trans h)
        · exact not_S_prefix_of_T_subtree S T r hc.hTS hc.hST h hSr
      simp only
      rw [Bool.eq_false_iff]
      intro hcon
      exact hnS (List.isPrefixOf_iff_prefix.mp hcon)
  · intro q hTq hqT
    by_cases he : fs.pathExists q = true
    · rw [createDirAll_lookup_of_exists fs _ q he]
      exact hC q hTq hqT
    · rw [Bool.not_eq_true] at he
      have hlnone : fs.lookup q = none := lookup_eq_none_of_pathExists_false fs q he
      have hright : (∀ p2 ∈ done, ignoredBy ignoreP p2 = false →
          q ≠ destOf S T p2) := by
        rcases hC q hTq hqT with ⟨p2, n, _, _, _, _, hlk⟩ | ⟨hi, _⟩
        · rw [hlnone] at hlk
          cases hlk
        · exact hi
      by_cases hmem : q ∈ prefixesOf (pparent (destOf S T p))
      · right
        refine ⟨hright, Or.inr ⟨createDirAll_lookup_missing_mem fs _ q he hmem, ?_⟩⟩
        rcases stub_is_dest fs0 S T now hc ignoreP p q hp hig
          ((mem_prefixesOf q _).mp hmem) hTq hqT with ⟨p2, hp2, hig2, hq2⟩
        exact ⟨p2, hW ▸ hp2, hig2, hq2⟩
      · right
        rw [createDirAll_lookup_missing_notmem fs _ q he hmem]
        exact ⟨hright, Or.inl rfl⟩

theorem ApplyInv_upsert (fs0 : FS) (S T : Path) (ignoreP : List Path)
    (now : Nat) (W done : List Path) (fs : FS) (p : Path) (n : FNode)
    (hc : Mirror1Ctx fs0 S T now)
    (hinv : ApplyInv (fs0.createDirAll T) S T ignoreP now W done fs)
    (hSp : S <+: p)
    (hig : ignoredBy ignoreP p = false)
    (hn : (fs0.createDirAll T).lookup p = some n) :
    ApplyInv (fs0.createDirAll T) S T ignoreP now W (done ++ [p])
      (fs.upsert (destOf S T p) (copyNode n now)) := by
  rcases hinv with ⟨hA, hWf, hC⟩
  have hTd : T <+: destOf S T p := T_prefix_destOf S T p
  have hdT : destOf S T p ≠ T := destOf_ne_T S T p hc.hSne hSp
  refine ⟨?_, ?_, ?_⟩
  · intro q hdom
    have hqd : q ≠ destOf S T p := by
      intro hee
      rcases hdom with hd | hd
      · exact hd (hee ▸ hTd)
      · exact hdT (hee.symm.trans hd)
    rw [upsert_lookup_other fs _ q _ hqd]
    exact hA q hdom
  · rw [upsert_filter_entries fs _ _ _ ?_]
    · exact hWf
    · intro e hee
      show List.isPrefixOf S e.1 = false
      rw [Bool.eq_false_iff]
      intro hcon
      exact not_S_prefix_of_T_subtree S T (destOf S T p) hc.hTS hc.hST hTd
        (hee ▸ List.isPrefixOf_iff_prefix.mp hcon)
  · intro q hTq hqT
    by_cases hqd : q = destOf S T p
    · left
      refine ⟨p, n, List.mem_append_right done (List.mem_singleton_self p),
        hig, hqd, hn, ?_⟩
      rw [hqd]
      exact upsert_lookup_self fs _ _
    · rw [upsert_lookup_other fs _ q _ hqd]
      rcases hC q hTq hqT with ⟨p2, n2, hmem, hig2, hq2, hn2, hlk⟩ | ⟨hi, hrest⟩
      · exact Or.inl ⟨p2, n2, List.mem_append_left _ hmem, hig2, hq2, hn2, hlk⟩
      · refine Or.inr ⟨?_, hrest⟩
        intro p2 hmem hig2
        rcases List.mem_append.mp hmem with hm | hm
        · exact hi p2 hm hig2
        · rw [List.mem_singleton.mp hm]
          exact hqd

theorem execute_firstRun_ignored (now : Nat) (fs : FS) (S T : Path)
    (ignoreP : List Path) (p : Path) (hig : ignoredBy ignoreP p = true) :
    execute_item now fs (firstRunItem S T ignoreP p) = Except.ok fs := by
  unfold firstRunItem
  rw [if_pos hig]
  rfl

theorem ApplyInv_done_snoc_ignored (fs0m : FS) (S T : Path)
    (ignoreP : List Path) (now : Nat) (W done : List Path) (fs : FS)
    (p : Path) (hig : ignoredBy ignoreP p = true)
    (hinv : ApplyInv fs0m S T ignoreP now W done fs) :
    ApplyInv fs0m S T ignoreP now W (done ++ [p]) fs := by
  rcases hinv with ⟨hA, hWf, hC⟩
  refine ⟨hA, hWf, fun q hTq hqT => ?_⟩
  rcases hC q hTq hqT with ⟨p2, n2, hmem, hig2, hq2, hn2, hlk⟩ | ⟨hi, hrest⟩
  · exact Or.inl ⟨p2, n2, List.mem_append_left _ hmem, hig2, hq2, hn2, hlk⟩
  · refine Or.inr ⟨?_, hrest⟩
    intro p2 hmem hig2
    rcases List.mem_append.mp hmem with hm | hm
    · exact hi p2 hm hig2
    · rw [List.mem_singleton.mp hm] at hig2
      rw [hig2] at hig
      cases hig

theorem ApplyInv_step (fs0 : FS) (S T : Path) (ignoreP : List Path)
    (now : Nat) (W done : List Path) (fs : FS) (p : Path)
    (hc : Mirror1Ctx fs0 S T now)
    (hinv : ApplyInv (fs0.createDirAll T) S T ignoreP now W done fs)
    (hp : p ∈ (fs0.createDirAll T).walk S)
    (hW : W = (fs0.createDirAll T).walk S) :
    ∃ fs2, execute_item now fs (firstRunItem S T ignoreP p) = Except.ok fs2
      ∧ ApplyInv (fs0.createDirAll T) S T ignoreP now W (done ++ [p]) fs2 := by
  cases hig : ignoredBy ignoreP p with
  | true =>
    exact ⟨fs, execute_firstRun_ignored now fs S T ignoreP p hig,
      ApplyInv_done_snoc_ignored _ S T ignoreP now W done fs p hig hinv⟩
  | false =>
    have hSp : S <+: p := walk_mem_S_pre _ S p hp
    rcases walk_mem_fs0_entry fs0 S T p hc.hST hp with ⟨n, _, hn0⟩
    have hn : (fs0.createDirAll T).lookup p = some n := by
      rw [mkfs_lookup_S_subtree fs0 S T p hc.hST hSp]
      exact hn0
    have hexe : execute_item now fs (firstRunItem S T ignoreP p)
        = copyPath now fs p (destOf S T p) := by
      unfold firstRunItem
      rw [hig]
      simp only [Bool.false_eq_true, if_false]
      rfl
    have hdomp : ¬ T <+: p ∨ p = T :=
      Or.inl (not_T_prefix_of_S_subtree S T p hc.hTS hc.hST hSp)
    have hfslp : fs.lookup p = some n := by
      rw [hinv.1 p hdomp]
      exact hn
    cases hPex : fs.pathExists (pparent (destOf S T p)) with
    | true =>
      have hcp : copyPath now fs p (destOf S T p)
          = copyInto now fs p (destOf S T p) := by
        unfold copyPath
        rw [hPex]
        rfl
      refine ⟨fs.upsert (destOf S T p) (copyNode n now), ?_, ?_⟩
      · rw [hexe, hcp]
        exact copyInto_ok now fs p _ n hfslp
      · exact ApplyInv_upsert fs0 S T ignoreP now W done fs p n hc hinv hSp hig hn
    | false =>
      have hinv2 := ApplyInv_mkdir fs0 S T ignoreP now W done fs p hc hinv hp hW hig
      have hcp : copyPath now fs p (destOf S T p)
          = copyInto now (fs.createDirAll (pparent (destOf S T p))) p
            (destOf S T p) := by
        unfold copyPath
        rw [hPex]
        rfl
      have hfslp2 : (fs.createDirAll (pparent (destOf S T p))).lookup p = some n := by
        rw [createDirAll_lookup_of_exists fs _ p
          (pathExists_true_of_lookup fs p n hfslp)]
        exact hfslp
      refine ⟨(fs.createDirAll (pparent (destOf S T p))).upsert (destOf S T p)
        (copyNode n now), ?_, ?_⟩
      · rw [hexe, hcp]
        exact copyInto_ok now _ p _ n hfslp2
      · exact ApplyInv_upsert fs0 S T ignoreP now W done _ p n hc hinv2 hSp hig hn

theorem applyItems_fold (fs0 : FS) (S T : Path) (ignoreP : List Path)
    (now : Nat) (hc : Mirror1Ctx fs0 S T now) :
    ∀ (rest done : List Path) (fs : FS),
      done ++ rest = (fs0.createDirAll T).walk S →
      ApplyInv (fs0.createDirAll T) S T ignoreP now
        ((fs0.createDirAll T).walk S) done fs →
      ∃ fs2, applyItems now fs (rest.map (firstRunItem S T ignoreP))
          = Except.ok fs2
        ∧ ApplyInv (fs0.createDirAll T) S T ignoreP now
            ((fs0.createDirAll T).walk S) (done ++ rest) fs2 := by
  intro rest
  induction rest with
  | nil =>
    intro done fs hsplit hinv
    refine ⟨fs, rfl, ?_⟩
    rw [List.append_nil]
    exact hinv
  | cons p rest ih =>
    intro done fs hsplit hinv
    have hp : p ∈ (fs0.createDirAll T).walk S := by
      rw [← hsplit]
      exact List.mem_append_right done (List.mem_cons_self p rest)
    rcases ApplyInv_step fs0 S T ignoreP now _ done fs p hc hinv hp rfl with
      ⟨fs2, hexec, hinv2⟩
    have hsplit2 : (done ++ [p]) ++ rest = (fs0.createDirAll T).walk S := by
      rw [List.append_assoc]
      simpa using hsplit
    rcases ih (done ++ [p]) fs2 hsplit2 hinv2 with ⟨fs3, happ, hinv3⟩
    refine ⟨fs3, ?_, ?_⟩
    · unfold applyItems at happ ⊢
      rw [List.map_cons, List.foldlM_cons, hexec]
      exact happ
    · rw [show done ++ p :: rest = (done ++ [p]) ++ rest from by simp]
      exact hinv3

theorem ApplyInv_final_dest (fs0 : FS) (S T : Path) (ignoreP : List Path)
    (now : Nat) (hc : Mirror1Ctx fs0 S T now) (fs1 : FS)
    (hinv : ApplyInv (fs0.createDirAll T) S T ignoreP now
      ((fs0.createDirAll T).walk S) ((fs0.createDirAll T).walk S) fs1)
    (p : Path) (hp : p ∈ (fs0.createDirAll T).walk S)
    (hig : ignoredBy ignoreP p = false) :
    ∃ n, (fs0.createDirAll T).lookup p = some n
      ∧ fs1.lookup (destOf S T p) = some (copyNode n now) := by
  have hSp : S <+: p := walk_mem_S_pre _ S p hp
  rcases hinv.2.2 (destOf S T p) (T_prefix_destOf S T p)
    (destOf_ne_T S T p hc.hSne hSp) with
    ⟨p2, n, hmem, _, hq2, hn2, hlk⟩ | ⟨hi, _⟩
  · have hpp : p2 = p :=
      destOf_inj S T p2 p (walk_mem_S_pre _ S p2 hmem) hSp hq2.symm
    rw [hpp] at hn2
    exact ⟨n, hn2, hlk⟩
  · exact absurd rfl (hi p hp hig)

theorem ApplyInv_final_under_T (fs0 : FS) (S T : Path) (ignoreP : List Path)
    (now : Nat) (fs1 : FS)
    (hinv : ApplyInv (fs0.createDirAll T) S T ignoreP now
      ((fs0.createDirAll T).walk S) ((fs0.createDirAll T).walk S) fs1)
    (q : Path) (n2 : FNode) (hTq : T <+: q) (hqT : q ≠ T)
    (hlk : fs1.lookup q = some n2) :
    ∃ p n, p ∈ (fs0.createDirAll T).walk S ∧ ignoredBy ignoreP p = false
      ∧ q = destOf S T p ∧ (fs0.createDirAll T).lookup p = some n
      ∧ n2 = copyNode n now := by
  rcases hinv.2.2 q hTq hqT with
    ⟨p2, n, hmem, hig2, hq2, hn2, hlk2⟩ | ⟨hi, hrest⟩
  · rw [hlk] at hlk2
    exact ⟨p2, n, hmem, hig2, hq2, hn2, Option.some.inj hlk2⟩
  · rcases hrest with hnone | ⟨_, p2, hpW, hig2, hq2⟩
    · rw [hnone] at hlk
      cases hlk
    · exact absurd hq2 (hi p2 hpW hig2)

/-- The item the second run plans for a walked source entry: `Ignore`
under an ignore root, `NotUpdate` (spec `Skip`) otherwise. -/
def secondRunItem (S T : Path) (ignoreP : List Path) (p : Path) : Item :=
  if ignoredBy ignoreP p then ⟨p, destOf S T p, Strategy.ignored⟩
  else ⟨p, destOf S T p, Strategy.notUpdate⟩

theorem secondRunItem_dest (S T : Path) (ignoreP : List Path) (p : Path) :
    (secondRunItem S T ignoreP p).dest = destOf S T p := by
  unfold secondRunItem
  split_ifs <;> rfl

theorem secondRunItem_strategy (S T : Path) (ignoreP : List Path) (p : Path) :
    (secondRunItem S T ignoreP p).strategy = Strategy.notUpdate
      ∨ (secondRunItem S T ignoreP p).strategy = Strategy.ignored := by
  unfold secondRunItem
  split_ifs
  · exact Or.inr rfl
  · exact Or.inl rfl

theorem secondRunItem_not_ignored (S T : Path) (ignoreP : List Path) (p : Path)
    (hig : ignoredBy ignoreP p = false) :
    ¬ (secondRunItem S T ignoreP p).strategy = Strategy.ignored := by
  unfold secondRunItem
  rw [hig]
  simp only [Bool.false_eq_true, if_false]
  intro hcon
  cases hcon

theorem phase2Step_noop (vec : List Item) (q : Path)
    (h : ∃ i it, vec.findIdx? (fun v => v.dest == q) = some i
      ∧ vec[i]? = some it ∧ ¬ it.strategy = Strategy.ignored) :
    phase2Step vec q = vec := by
  rcases h with ⟨i, it, hidx, hget, hstrat⟩
  unfold phase2Step
  rw [hidx]
  simp only [phase2Apply]
  rw [hget]
  simp only [phase2Found]
  rw [if_neg hstrat]

theorem foldl_phase2_noop (qs : List Path) (vec : List Item)
    (h : ∀ q ∈ qs, ∃ i it, vec.findIdx? (fun v => v.dest == q) = some i
      ∧ vec[i]? = some it ∧ ¬ it.strategy = Strategy.ignored) :
    qs.foldl phase2Step vec = vec := by
  induction qs with
  | nil => rfl
  | cons q qs ih =>
    rw [List.foldl_cons, phase2Step_noop vec q (h q (List.mem_cons_self q qs))]
    exact ih (fun q2 hq2 => h q2 (List.mem_cons_of_mem q hq2))

theorem execute_item_noop (now : Nat) (fs : FS) (it : Item)
    (h1 : ¬ it.strategy = Strategy.copy) (h2 : ¬ it.strategy = Strategy.delete) :
    execute_item now fs it = Except.ok fs := by
  rcases it with ⟨s, d, st⟩
  cases st with
  | copy => exact absurd rfl h1
  | delete => exact absurd rfl h2
  | ignored => rfl
  | notUpdate => rfl

theorem applyItems_noop (now : Nat) (fs : FS) (items : List Item)
    (h : ∀ it ∈ items, ¬ it.strategy = Strategy.copy
      ∧ ¬ it.strategy = Strategy.delete) :
    applyItems now fs items = Except.ok fs := by
  induction items with
  | nil => rfl
  | cons it items ih =>
    unfold applyItems at ih ⊢
    rw [List.foldlM_cons, execute_item_noop now fs it
      (h it (List.mem_cons_self it items)).1 (h it (List.mem_cons_self it items)).2]
    exact ih (fun it2 hit2 => h it2 (List.mem_cons_of_mem it hit2))

theorem plan2_shape (fs0 : FS) (job : Job) (now : Nat)
    (hc : Mirror1Ctx fs0 job.source job.target now)
    (hmodel : job.model.getD BackupModel.full = BackupModel.mirror)
    (fs1 : FS)
    (hinv : ApplyInv (fs0.createDirAll job.target) job.source job.target
      job.ignorePaths now ((fs0.createDirAll job.target).walk job.source)
      ((fs0.createDirAll job.target).walk job.source) fs1) :
    get_items fs1 job = Except.ok
      (((fs0.createDirAll job.target).walk job.source).map
        (secondRunItem job.source job.target job.ignorePaths)) := by
  have hlkS : fs1.lookup job.source = fs0.lookup job.source := by
    rw [hinv.1 job.source (Or.inl (not_T_prefix_of_S_subtree job.source
      job.target job.source hc.hTS hc.hST List.prefix_rfl))]
    exact mkfs_lookup_S_subtree fs0 job.source job.target job.source hc.hST
      List.prefix_rfl
  have hSdir1 : fs1.isDirAt job.source = true := by
    have h0 := hc.hSdir
    unfold FS.isDirAt at h0 ⊢
    rw [hlkS]
    exact h0
  have hSex1 : fs1.pathExists job.source = true :=
    pathExists_of_isDirAt _ _ hSdir1
  have hmk : fs1.createDirAll job.target = fs1 := by
    apply createDirAll_eq_self
    intro r hr
    have hrT : r <+: job.target := (mem_prefixesOf _ _).mp hr
    have hdom : ¬ job.target <+: r ∨ r = job.target := by
      by_cases he : r = job.target
      · exact Or.inr he
      · exact Or.inl (fun hTr => he (hrT.eq_of_length_le hTr.length_le))
    have hex := createDirAll_pathExists_pre fs0 job.target r hrT
    unfold FS.pathExists at hex ⊢
    rw [hinv.1 r hdom]
    exact hex
  have hwalk : fs1.walk job.source
      = (fs0.createDirAll job.target).walk job.source := by
    unfold FS.walk
    rw [hinv.2.1]
  unfold get_items
  simp only [hSex1, hSdir1, Bool.not_true, Bool.false_eq_true, if_false]
  rw [hmk, phase1_eq, hwalk]
  simp only [Except.bind]
  have hmapeq : ((fs0.createDirAll job.target).walk job.source).map
      (planEntry fs1 (job.model.getD BackupModel.full) job.ignorePaths
        job.target (pparent job.source))
      = ((fs0.createDirAll job.target).walk job.source).map
        (secondRunItem job.source job.target job.ignorePaths) := by
    apply List.map_congr_left
    intro p hp
    have hSp : job.source <+: p := walk_mem_S_pre _ _ p hp
    unfold planEntry secondRunItem
    cases hig : ignoredBy job.ignorePaths p with
    | true =>
      rw [show (job.ignorePaths.any (fun q => pstarts p q)) = true from hig,
        if_pos rfl]
      rfl
    | false =>
      rw [show (job.ignorePaths.any (fun q => pstarts p q)) = false from hig]
      simp only [Bool.false_eq_true, if_false]
      rw [hmodel]
      rcases ApplyInv_final_dest fs0 job.source job.target job.ignorePaths now
        hc fs1 hinv p hp hig with ⟨n, hn, hdlk⟩
      have hlkp : fs1.lookup p = some n := by
        rw [hinv.1 p (Or.inl (not_T_prefix_of_S_subtree job.source job.target p
          hc.hTS hc.hST hSp))]
        exact hn
      have hnm : n.mtime ≤ now + TOLERANCE := by
        have h1 : fs0.lookup p = some n := by
          rw [← mkfs_lookup_S_subtree fs0 job.source job.target p hc.hST hSp]
          exact hn
        exact hc.hmtime (p, n) (mem_entries_of_lookup fs0 p n h1) hSp
      have hnu : needsUpdateSpec fs1 p
          (pjoin job.target (p.drop (pparent job.source).length)) = false := by
        unfold needsUpdateSpec FS.pathExists FS.fsize FS.fmtime
        rw [show fs1.lookup (pjoin job.target (p.drop (pparent job.source).length))
            = some (copyNode n now) from hdlk, hlkp]
        simp [copyNode]
        omega
      rw [hnu]
      simp only [Bool.false_eq_true, if_false]
      rfl
  rw [hmapeq]
  congr 1
  apply foldl_phase2_noop
  intro q hq
  have hqmem := List.mem_filter.mp hq
  have hqT : q ≠ job.target := by
    have h2 := hqmem.2
    simpa using h2
  have hfq := walk_mem_facts fs1 job.target q hqmem.1
  have hTq : job.target <+: q := List.isPrefixOf_iff_prefix.mp hfq.1
  rcases Option.isSome_iff_exists.mp hfq.2 with ⟨n2, hn2⟩
  rcases ApplyInv_final_under_T fs0 job.source job.target job.ignorePaths now
    fs1 hinv q n2 hTq hqT hn2 with ⟨p3, n, hp3, hig3, hq3, _, _⟩
  have hvmem : secondRunItem job.source job.target job.ignorePaths p3
      ∈ ((fs0.createDirAll job.target).walk job.source).map
        (secondRunItem job.source job.target job.ignorePaths) :=
    List.mem_map_of_mem _ hp3
  have hpred : ((secondRunItem job.source job.target job.ignorePaths p3).dest
      == q) = true := by
    rw [secondRunItem_dest]
    simp [hq3]
  cases hfind : (((fs0.createDirAll job.target).walk job.source).map
      (secondRunItem job.source job.target job.ignorePaths)).findIdx?
      (fun v => v.dest == q) with
  | none =>
    rw [List.findIdx?_eq_none_iff] at hfind
    have hcon := hfind _ hvmem
    rw [hpred] at hcon
    cases hcon
  | some i =>
    rcases List.findIdx?_eq_some_iff_getElem.mp hfind with ⟨hlt, hpi, _⟩
    refine ⟨i, _, rfl, List.getElem?_eq_getElem hlt, ?_⟩
    have hmemi := List.getElem_mem hlt
    rcases List.mem_map.mp hmemi with ⟨p4, hp4, hpe4⟩
    have hd4 : ((((fs0.createDirAll job.target).walk job.source).map
        (secondRunItem job.source job.target job.ignorePaths))[i]).dest
        = q := by
      simpa using hpi
    have hdest4 : destOf job.source job.target p4 = q := by
      rw [← secondRunItem_dest job.source job.target job.ignorePaths p4, hpe4]
      exact hd4
    have hp43 : p4 = p3 :=
      destOf_inj job.source job.target p4 p3 (walk_mem_S_pre _ _ p4 hp4)
        (walk_mem_S_pre _ _ p3 hp3) (hdest4.trans hq3)
    rw [← hpe4, hp43]
    exact secondRunItem_not_ignored job.source job.target job.ignorePaths p3 hig3

/-- C7 (corrected).  For a `Mirror` directory job into an initially empty
destination, when no source modification time exceeds the first run's
wall-clock time by more than the tolerance, the plan-then-apply sequence
run twice yields a second plan consisting only of `NotUpdate` (spec
`Skip`) and `Ignore` items — no `Copy` and no `Delete` — and applying the
second plan leaves the filesystem byte-identical.  Sources timestamped in
the future beyond the tolerance are re-copied on the second run, and jobs
with ignore patterns plan `Ignore` (not `Skip`) items, so the claim as
stated fails without these qualifications (see the counterexample).  The
copy semantics is the spec-modelled `copyPath`. -/
theorem c7_mirror_plan_apply_twice (fs0 : FS) (job : Job) (now1 : Nat)
    (hc : Mirror1Ctx fs0 job.source job.target now1)
    (hmodel : job.model.getD BackupModel.full = BackupModel.mirror) :
    ∃ plan1 fs1 plan2,
      get_items fs0 job = Except.ok plan1
      ∧ applyItems now1 (fs0.createDirAll job.target) plan1 = Except.ok fs1
      ∧ get_items fs1 job = Except.ok plan2
      ∧ (∀ it ∈ plan2, it.strategy = Strategy.notUpdate
          ∨ it.strategy = Strategy.ignored)
      ∧ (∀ now2, applyItems now2 fs1 plan2 = Except.ok fs1) := by
  have hinv0 := ApplyInv_base fs0 job.source job.target job.ignorePaths now1
    ((fs0.createDirAll job.target).walk job.source) hc.hTempty
  rcases applyItems_fold fs0 job.source job.target job.ignorePaths now1 hc
    ((fs0.createDirAll job.target).walk job.source) []
    (fs0.createDirAll job.target) (by rw [List.nil_append]) hinv0 with
    ⟨fs1, happly, hinv1⟩
  rw [List.nil_append] at hinv1
  refine ⟨_, fs1, _, plan1_shape fs0 job now1 hc, happly,
    plan2_shape fs0 job now1 hc hmodel fs1 hinv1, ?_, ?_⟩
  · intro it hit
    rcases List.mem_map.mp hit with ⟨p, _, hpe⟩
    rw [← hpe]
    exact secondRunItem_strategy job.source job.target job.ignorePaths p
  · intro now2
    apply applyItems_noop
    intro it hit
    rcases List.mem_map.mp hit with ⟨p, _, hpe⟩
    rw [← hpe]
    unfold secondRunItem
    split_ifs
    · exact ⟨(fun hcon => by cases hcon), (fun hcon => by cases hcon)⟩
    · exact ⟨(fun hcon => by cases hcon), (fun hcon => by cases hcon)⟩

/-- Witness for C7: a concrete mirror job (`s` with one file `s/f`, all
mtimes within tolerance of the run time 3, destination `d` empty) run
plan-apply-plan-apply. -/
theorem c7_mirror_plan_apply_twice_witness :
    ∃ plan1 fs1 plan2,
      get_items ⟨[(["s"], ⟨true, 0, 2, []⟩), (["s", "f"], ⟨false, 3, 2, [1, 2, 3]⟩)]⟩
          ⟨1, ["s"], ["d"], none, none, none, some BackupModel.mirror⟩
        = Except.ok plan1
      ∧ applyItems 3 ((FS.mk [(["s"], ⟨true, 0, 2, []⟩),
          (["s", "f"], ⟨false, 3, 2, [1, 2, 3]⟩)]).createDirAll ["d"]) plan1
        = Except.ok fs1
      ∧ get_items fs1 ⟨1, ["s"], ["d"], none, none, none, some BackupModel.mirror⟩
        = Except.ok plan2
      ∧ (∀ it ∈ plan2, it.strategy = Strategy.notUpdate
          ∨ it.strategy = Strategy.ignored)
      ∧ (∀ now2, applyItems now2 fs1 plan2 = Except.ok fs1) :=
  c7_mirror_plan_apply_twice
    ⟨[(["s"], ⟨true, 0, 2, []⟩), (["s", "f"], ⟨false, 3, 2, [1, 2, 3]⟩)]⟩
    ⟨1, ["s"], ["d"], none, none, none, some BackupModel.mirror⟩ 3
    ⟨by decide, by decide, by decide, by decide, by decide, by decide,
      by decide, by decide⟩ (by decide)

/-- Counterexample for C7: two concrete mirror jobs run plan-apply-plan.
First, a source file whose mtime (99) exceeds the first run's time (3)
plus the tolerance: the second plan contains a `Copy`, not only `Skip`
actions.  Second, a job with ignore pattern `tmp`: the second plan
contains `Ignore` items, again not only `Skip` actions. -/
theorem c7_second_plan_only_skip_cex :
    ((get_items ⟨[(["s"], ⟨true, 0, 2, []⟩), (["s", "f"], ⟨false, 3, 99, [1, 2, 3]⟩)]⟩
        ⟨1, ["s"], ["d"], none, none, none, some BackupModel.mirror⟩).bind
      (fun p1 => (applyItems 3 ((FS.mk [(["s"], ⟨true, 0, 2, []⟩),
          (["s", "f"], ⟨false, 3, 99, [1, 2, 3]⟩)]).createDirAll ["d"]) p1).bind
        (fun fs1 => get_items fs1
          ⟨1, ["s"], ["d"], none, none, none, some BackupModel.mirror⟩)))
      = Except.ok [Item.mk ["s"] ["d", "s"] Strategy.notUpdate,
          Item.mk ["s", "f"] ["d", "s", "f"] Strategy.copy]
    ∧ (Item.mk ["s", "f"] ["d", "s", "f"] Strategy.copy).strategy
        ≠ Strategy.notUpdate
    ∧ ((get_items ⟨[(["s"], ⟨true, 0, 2, []⟩), (["s", "f"], ⟨false, 3, 2, [1, 2, 3]⟩),
          (["s", "tmp"], ⟨true, 0, 2, []⟩), (["s", "tmp", "x"], ⟨false, 1, 2, [5]⟩)]⟩
        ⟨1, ["s"], ["d"], none, none, some [["tmp"]], some BackupModel.mirror⟩).bind
      (fun p1 => (applyItems 3 ((FS.mk [(["s"], ⟨true, 0, 2, []⟩),
          (["s", "f"], ⟨false, 3, 2, [1, 2, 3]⟩), (["s", "tmp"], ⟨true, 0, 2, []⟩),
          (["s", "tmp", "x"], ⟨false, 1, 2, [5]⟩)]).createDirAll ["d"]) p1).bind
        (fun fs1 => get_items fs1
          ⟨1, ["s"], ["d"], none, none, some [["tmp"]], some BackupModel.mirror⟩)))
      = Except.ok [Item.mk ["s"] ["d", "s"] Strategy.notUpdate,
          Item.mk ["s", "f"] ["d", "s", "f"] Strategy.notUpdate,
          Item.mk ["s", "tmp"] ["d", "s", "tmp"] Strategy.ignored,
          Item.mk ["s", "tmp", "x"] ["d", "s", "tmp", "x"] Strategy.ignored]
    ∧ (Item.mk ["s", "tmp"] ["d", "s", "tmp"] Strategy.ignored).strategy
        ≠ Strategy.notUpdate := by
  exact ⟨by rfl, by decide, by rfl, by decide⟩

end HBackup
